import Mathlib

/-!
# Liftwin — verification of the scoring engine and persistence/share model

Shallow embedding of the Liftwin sources (src/eventKey.ts, src/storage.ts,
src/App.tsx, src/EventView.tsx and the legacy single-file app) in Lean 4,
together with proofs settling the frozen specification claims.

Embedding conventions:
* JavaScript numbers are modelled exactly: the persistence / JSON layer
  models JS numbers as integers (`Int`), and the scoring layer models them
  as rationals (`ℚ`).  IEEE-754 rounding is outside the embedding; all
  arithmetic the claims mention is exact in these domains.
* Browser built-ins used by the sources (`btoa`, `atob`, `TextEncoder`,
  `TextDecoder`, `JSON.stringify`, `JSON.parse`, `String.prototype.trim`,
  `decodeURIComponent`, regular-expression matches) are modelled as
  executable Lean functions following their specified semantics on the
  value domains above.
* Fallible operations return `Option`; a JS `null` result or a caught
  exception is `none`.
-/

namespace Liftwin

/-! ## JavaScript string whitespace and `String.prototype.trim` -/

/-- Code points treated as whitespace by JS `trim` (WhiteSpace ∪ LineTerminator). -/
def jsWhitespaceCodes : List Nat :=
  [9, 10, 11, 12, 13, 32, 0xA0, 0x1680, 0x2000, 0x2001, 0x2002, 0x2003,
   0x2004, 0x2005, 0x2006, 0x2007, 0x2008, 0x2009, 0x200A, 0x2028, 0x2029,
   0x202F, 0x205F, 0x3000, 0xFEFF]

def isJsWhitespace (c : Char) : Bool :=
  jsWhitespaceCodes.contains c.toNat

/-- JS `String.prototype.trim` on a list of characters. -/
def jsTrimList (l : List Char) : List Char :=
  ((l.dropWhile isJsWhitespace).reverse.dropWhile isJsWhitespace).reverse

/-! ## Base64: models of `btoa` and `atob`

`makeEventKey` builds a binary string whose character codes are exactly the
UTF-8 bytes and feeds it to `btoa`; we identify that binary string with its
list of byte values.  `atob` implements the WHATWG forgiving-base64 decode:
strip ASCII whitespace, strip up to two trailing `=` when the length is a
multiple of four, reject a remaining length of 1 mod 4, then decode sextets. -/

def base64Alphabet : List Char :=
  "ABCDEFGHIJKLMNOPQRSTUVWXYZabcdefghijklmnopqrstuvwxyz0123456789+/".data

def b64Char (v : Nat) : Char := base64Alphabet.getD v '?'

def b64Val (c : Char) : Option Nat := base64Alphabet.findIdx? (· = c)

/-- Model of `btoa` over the byte values of its binary-string argument. -/
def btoaBytes : List Nat → List Char
  | [] => []
  | [a] => [b64Char (a / 4), b64Char (a % 4 * 16), '=', '=']
  | [a, b] => [b64Char (a / 4), b64Char (a % 4 * 16 + b / 16), b64Char (b % 16 * 4), '=']
  | a :: b :: c :: rest =>
      b64Char (a / 4) :: b64Char (a % 4 * 16 + b / 16) ::
      b64Char (b % 16 * 4 + c / 64) :: b64Char (c % 64) :: btoaBytes rest

/-- ASCII whitespace stripped by forgiving-base64 decode. -/
def isAsciiWsB64 (c : Char) : Bool :=
  c.toNat = 9 ∨ c.toNat = 10 ∨ c.toNat = 12 ∨ c.toNat = 13 ∨ c.toNat = 32

/-- Drop up to two leading `=` (used on the reversed input). -/
def dropPad (l : List Char) : List Char :=
  match l with
  | [] => []
  | c1 :: t1 =>
    if c1 = '=' then
      match t1 with
      | [] => []
      | c2 :: t2 => if c2 = '=' then t2 else c2 :: t2
    else c1 :: t1

def stripBase64Pad (l : List Char) : List Char :=
  (dropPad l.reverse).reverse

def b64DecodeGroups : List Char → Option (List Nat)
  | [] => some []
  | [_] => none
  | [c1, c2] =>
      match b64Val c1, b64Val c2 with
      | some v1, some v2 => some [v1 * 4 + v2 / 16]
      | _, _ => none
  | [c1, c2, c3] =>
      match b64Val c1, b64Val c2, b64Val c3 with
      | some v1, some v2, some v3 => some [v1 * 4 + v2 / 16, v2 % 16 * 16 + v3 / 4]
      | _, _, _ => none
  | c1 :: c2 :: c3 :: c4 :: rest =>
      match b64Val c1, b64Val c2, b64Val c3, b64Val c4, b64DecodeGroups rest with
      | some v1, some v2, some v3, some v4, some tail =>
          some ((v1 * 4 + v2 / 16) :: (v2 % 16 * 16 + v3 / 4) :: (v3 % 4 * 64 + v4) :: tail)
      | _, _, _, _, _ => none

/-- Model of `atob` (forgiving-base64 decode); `none` models the thrown
`InvalidCharacterError`. -/
def atobChars (l : List Char) : Option (List Nat) :=
  let l1 := l.filter (fun c => !isAsciiWsB64 c)
  let l2 := if l1.length % 4 = 0 then stripBase64Pad l1 else l1
  if l2.length % 4 = 1 then none else b64DecodeGroups l2

/-- The encoding with padding characters removed, structurally. -/
def btoaStripped : List Nat → List Char
  | [] => []
  | [a] => [b64Char (a / 4), b64Char (a % 4 * 16)]
  | [a, b] => [b64Char (a / 4), b64Char (a % 4 * 16 + b / 16), b64Char (b % 16 * 4)]
  | a :: b :: c :: rest =>
      b64Char (a / 4) :: b64Char (a % 4 * 16 + b / 16) ::
      b64Char (b % 16 * 4 + c / 64) :: b64Char (c % 64) :: btoaStripped rest

/-! ## UTF-8: models of `TextEncoder` and `TextDecoder`

Lean strings are sequences of Unicode scalar values, exactly the well-formed
JS strings; `TextEncoder.encode` is UTF-8 encoding of those scalars.  We
model `TextDecoder.decode` by the strict UTF-8 decoder (`none` on malformed
input); the real decoder is non-fatal and substitutes U+FFFD on malformed
input, but the two agree on every valid encoding, which is all the claims
exercise. -/

def utf8EncodeChar (c : Char) : List Nat :=
  if c.toNat < 0x80 then [c.toNat]
  else if c.toNat < 0x800 then [0xC0 + c.toNat / 64, 0x80 + c.toNat % 64]
  else if c.toNat < 0x10000 then
    [0xE0 + c.toNat / 4096, 0x80 + c.toNat / 64 % 64, 0x80 + c.toNat % 64]
  else
    [0xF0 + c.toNat / 262144, 0x80 + c.toNat / 4096 % 64,
     0x80 + c.toNat / 64 % 64, 0x80 + c.toNat % 64]

def utf8Encode (l : List Char) : List Nat :=
  (l.map utf8EncodeChar).flatten

/-- Decode one scalar value from the front of a UTF-8 byte stream (strict:
rejects truncated, overlong, surrogate and out-of-range sequences). -/
def utf8DecodeOne (l : List Nat) : Option (Nat × List Nat) :=
  match l with
  | [] => none
  | b1 :: rest =>
    if b1 < 0x80 then some (b1, rest)
    else if b1 < 0xC2 then none
    else if b1 < 0xE0 then
      match rest with
      | b2 :: rest2 =>
        if 0x80 ≤ b2 ∧ b2 < 0xC0 then
          some ((b1 - 0xC0) * 64 + (b2 - 0x80), rest2)
        else none
      | [] => none
    else if b1 < 0xF0 then
      match rest with
      | b2 :: b3 :: rest3 =>
        if (0x80 ≤ b2 ∧ b2 < 0xC0) ∧ (0x80 ≤ b3 ∧ b3 < 0xC0) ∧
            0x800 ≤ (b1 - 0xE0) * 4096 + (b2 - 0x80) * 64 + (b3 - 0x80) ∧
            ¬(0xD800 ≤ (b1 - 0xE0) * 4096 + (b2 - 0x80) * 64 + (b3 - 0x80) ∧
              (b1 - 0xE0) * 4096 + (b2 - 0x80) * 64 + (b3 - 0x80) < 0xE000) then
          some ((b1 - 0xE0) * 4096 + (b2 - 0x80) * 64 + (b3 - 0x80), rest3)
        else none
      | _ => none
    else if b1 < 0xF5 then
      match rest with
      | b2 :: b3 :: b4 :: rest4 =>
        if (0x80 ≤ b2 ∧ b2 < 0xC0) ∧ (0x80 ≤ b3 ∧ b3 < 0xC0) ∧ (0x80 ≤ b4 ∧ b4 < 0xC0) ∧
            0x10000 ≤ (b1 - 0xF0) * 262144 + (b2 - 0x80) * 4096 + (b3 - 0x80) * 64 + (b4 - 0x80) ∧
            (b1 - 0xF0) * 262144 + (b2 - 0x80) * 4096 + (b3 - 0x80) * 64 + (b4 - 0x80) < 0x110000 then
          some ((b1 - 0xF0) * 262144 + (b2 - 0x80) * 4096 + (b3 - 0x80) * 64 + (b4 - 0x80), rest4)
        else none
      | _ => none
    else none

def utf8DecodeF : Nat → List Nat → Option (List Char)
  | _, [] => some []
  | 0, _ :: _ => none
  | fuel + 1, b1 :: tl =>
    match utf8DecodeOne (b1 :: tl) with
    | none => none
    | some (n, rest) => (utf8DecodeF fuel rest).map (fun cs => Char.ofNat n :: cs)

/-- Strict UTF-8 decoding of a whole byte stream; the fuel is sufficient for
any input of this length, since every decoded scalar consumes a byte. -/
def utf8Decode (l : List Nat) : Option (List Char) :=
  utf8DecodeF (l.length + 1) l

/-! ## JSON: models of `JSON.stringify` and `JSON.parse`

The JSON value domain of the embedding: numbers are integers (IEEE-754
doubles are outside the embedding, see the header), strings are arbitrary
Unicode scalar sequences, objects keep their key insertion order exactly as
`JSON.stringify`/`JSON.parse` do.  The parser follows the JSON grammar with
two documented domain restrictions: number tokens with a fraction or
exponent part and `\u` escapes denoting UTF-16 surrogates are rejected
(they denote values outside the embedding's domain). -/

inductive Json where
  | null : Json
  | bool (b : Bool) : Json
  | num (i : Int) : Json
  | str (s : List Char) : Json
  | arr (items : List Json) : Json
  | obj (members : List (List Char × Json)) : Json

/-! ### Serialization (`JSON.stringify`, no space argument) -/

def natToCharsAux (n : Nat) : List Char :=
  if n = 0 then [] else Nat.digitChar (n % 10) :: natToCharsAux (n / 10)
  termination_by n
  decreasing_by exact Nat.div_lt_self (by omega) (by omega)

def natToChars (n : Nat) : List Char :=
  if n = 0 then ['0'] else (natToCharsAux n).reverse

def intToChars (i : Int) : List Char :=
  if i < 0 then '-' :: natToChars i.natAbs else natToChars i.natAbs

def escapeJsonChar (c : Char) : List Char :=
  if c = '"' then ['\\', '"']
  else if c = '\\' then ['\\', '\\']
  else if c.toNat = 8 then ['\\', 'b']
  else if c.toNat = 9 then ['\\', 't']
  else if c.toNat = 10 then ['\\', 'n']
  else if c.toNat = 12 then ['\\', 'f']
  else if c.toNat = 13 then ['\\', 'r']
  else if c.toNat < 32 then
    ['\\', 'u', '0', '0', Nat.digitChar (c.toNat / 16), Nat.digitChar (c.toNat % 16)]
  else [c]

def quoteJson (s : List Char) : List Char :=
  '"' :: (s.map escapeJsonChar).flatten ++ ['"']

mutual

def jsonStr : Json → List Char
  | .null => "null".data
  | .bool true => "true".data
  | .bool false => "false".data
  | .num i => intToChars i
  | .str s => quoteJson s
  | .arr items => '[' :: jsonStrItems items ++ [']']
  | .obj ms => '{' :: jsonStrMembers ms ++ ['}']

def jsonStrItems : List Json → List Char
  | [] => []
  | [j] => jsonStr j
  | j :: rest => jsonStr j ++ ',' :: jsonStrItems rest

def jsonStrMembers : List (List Char × Json) → List Char
  | [] => []
  | [(k, v)] => quoteJson k ++ ':' :: jsonStr v
  | (k, v) :: rest => quoteJson k ++ ':' :: jsonStr v ++ ',' :: jsonStrMembers rest

end

/-! ### Parsing (`JSON.parse`) -/

def isJsonWs (c : Char) : Bool :=
  c == ' ' || c == '\t' || c == '\n' || c == '\r'

def skipWs (l : List Char) : List Char := l.dropWhile isJsonWs

def isDigitCh (c : Char) : Bool := 48 ≤ c.toNat && c.toNat ≤ 57

def headNotDigit (l : List Char) : Bool :=
  match l with
  | [] => true
  | c :: _ => !isDigitCh c

def parseDigitsAux : List Char → Nat → Nat × List Char
  | [], acc => (acc, [])
  | c :: rest, acc =>
    if isDigitCh c then parseDigitsAux rest (acc * 10 + (c.toNat - 48))
    else (acc, c :: rest)

def parseNatNum (l : List Char) : Option (Nat × List Char) :=
  match l with
  | [] => none
  | c :: rest =>
    if c = '0' then
      if headNotDigit rest then some (0, rest) else none
    else if isDigitCh c then some (parseDigitsAux (c :: rest) 0)
    else none

def parseNumber (l : List Char) : Option (Int × List Char) :=
  match l with
  | [] => none
  | c :: rest =>
    if c = '-' then (parseNatNum rest).map (fun p => (-(p.1 : Int), p.2))
    else (parseNatNum (c :: rest)).map (fun p => ((p.1 : Int), p.2))

def hexVal (c : Char) : Option Nat :=
  if 48 ≤ c.toNat ∧ c.toNat ≤ 57 then some (c.toNat - 48)
  else if 97 ≤ c.toNat ∧ c.toNat ≤ 102 then some (c.toNat - 87)
  else if 65 ≤ c.toNat ∧ c.toNat ≤ 70 then some (c.toNat - 55)
  else none

/-- Decode one string-literal item after the opening quote: `some (none, r)`
means the closing quote was reached, `some (some c, r)` one character. -/
def parseStringStep (l : List Char) : Option (Option Char × List Char) :=
  match l with
  | [] => none
  | c :: rest =>
    if c = '"' then some (none, rest)
    else if c = '\\' then
      match rest with
      | [] => none
      | e :: rest2 =>
        if e = '"' then some (some '"', rest2)
        else if e = '\\' then some (some '\\', rest2)
        else if e = '/' then some (some '/', rest2)
        else if e = 'b' then some (some (Char.ofNat 8), rest2)
        else if e = 'f' then some (some (Char.ofNat 12), rest2)
        else if e = 'n' then some (some (Char.ofNat 10), rest2)
        else if e = 'r' then some (some (Char.ofNat 13), rest2)
        else if e = 't' then some (some (Char.ofNat 9), rest2)
        else if e = 'u' then
          match rest2 with
          | h1 :: h2 :: h3 :: h4 :: rest6 =>
            match hexVal h1, hexVal h2, hexVal h3, hexVal h4 with
            | some v1, some v2, some v3, some v4 =>
              if 0xD800 ≤ v1 * 4096 + v2 * 256 + v3 * 16 + v4 ∧
                  v1 * 4096 + v2 * 256 + v3 * 16 + v4 < 0xE000 then none
              else some (some (Char.ofNat (v1 * 4096 + v2 * 256 + v3 * 16 + v4)), rest6)
            | _, _, _, _ => none
          | _ => none
        else none
    else if c.toNat < 32 then none
    else some (some c, rest)

def parseStringBodyF : Nat → List Char → Option (List Char × List Char)
  | 0, _ => none
  | fuel + 1, l =>
    match parseStringStep l with
    | none => none
    | some (none, rest) => some ([], rest)
    | some (some c, rest) => (parseStringBodyF fuel rest).map (fun p => (c :: p.1, p.2))

/-- Parse a JSON string body (after the opening quote) up to and including
the closing quote.  The fuel is sufficient for any input of this length. -/
def parseStringBody (l : List Char) : Option (List Char × List Char) :=
  parseStringBodyF (l.length + 1) l

mutual

def parseValue : Nat → List Char → Option (Json × List Char)
  | 0, _ => none
  | fuel + 1, l =>
    match skipWs l with
    | [] => none
    | c :: rest =>
      if c = 'n' then
        match rest with
        | 'u' :: 'l' :: 'l' :: r => some (.null, r)
        | _ => none
      else if c = 't' then
        match rest with
        | 'r' :: 'u' :: 'e' :: r => some (.bool true, r)
        | _ => none
      else if c = 'f' then
        match rest with
        | 'a' :: 'l' :: 's' :: 'e' :: r => some (.bool false, r)
        | _ => none
      else if c = '"' then
        (parseStringBody rest).map (fun p => (.str p.1, p.2))
      else if c = '[' then
        match skipWs rest with
        | [] => none
        | d :: r =>
          if d = ']' then some (.arr [], r)
          else (parseItems fuel rest).map (fun p => (.arr p.1, p.2))
      else if c = '{' then
        match skipWs rest with
        | [] => none
        | d :: r =>
          if d = '}' then some (.obj [], r)
          else (parseMembers fuel rest).map (fun p => (.obj p.1, p.2))
      else if c = '-' ∨ isDigitCh c then
        (parseNumber (c :: rest)).map (fun p => (.num p.1, p.2))
      else none

def parseItems : Nat → List Char → Option (List Json × List Char)
  | 0, _ => none
  | fuel + 1, l =>
    match parseValue fuel l with
    | none => none
    | some (j, r) =>
      match skipWs r with
      | [] => none
      | d :: r2 =>
        if d = ',' then (parseItems fuel r2).map (fun p => (j :: p.1, p.2))
        else if d = ']' then some ([j], r2)
        else none

def parseMembers : Nat → List Char → Option (List (List Char × Json) × List Char)
  | 0, _ => none
  | fuel + 1, l =>
    match skipWs l with
    | [] => none
    | c :: rest =>
      if c = '"' then
        match parseStringBody rest with
        | none => none
        | some (k, r1) =>
          match skipWs r1 with
          | [] => none
          | d :: r2 =>
            if d = ':' then
              match parseValue fuel r2 with
              | none => none
              | some (v, r3) =>
                match skipWs r3 with
                | [] => none
                | e :: r4 =>
                  if e = ',' then (parseMembers fuel r4).map (fun p => ((k, v) :: p.1, p.2))
                  else if e = '}' then some ([(k, v)], r4)
                  else none
            else none
      else none

end

def jsonParse (l : List Char) : Option Json :=
  match parseValue (l.length + 1) l with
  | some (j, rest) => if skipWs rest = [] then some j else none
  | none => none

/-! `jfuelV` computes fuel sufficient for the recursive parser on a given
JSON value. -/

mutual

def jfuelV : Json → Nat
  | .null => 1
  | .bool _ => 1
  | .num _ => 1
  | .str _ => 1
  | .arr [] => 1
  | .arr (j :: rest) => 1 + jfuelI (j :: rest)
  | .obj [] => 1
  | .obj (m :: rest) => 1 + jfuelM (m :: rest)

def jfuelI : List Json → Nat
  | [] => 0
  | j :: rest => 1 + max (jfuelV j) (jfuelI rest)

def jfuelM : List (List Char × Json) → Nat
  | [] => 0
  | (_, v) :: rest => 1 + max (jfuelV v) (jfuelM rest)

end

/-! ## Data model (src/types.ts)

The athlete and event-snapshot records, with JS numbers modelled as
integers in the persistence layer (see the file header). -/

inductive Sex where
  | M : Sex
  | F : Sex
  | X : Sex
deriving DecidableEq

inductive PointsPreset where
  | F1 : PointsPreset
  | Simple : PointsPreset
  | Custom : PointsPreset
deriving DecidableEq

structure Athlete where
  id : String
  name : String
  sex : Sex
  age : Option Int
  bodyweight : Option Int
  squat : Option Int
  bench : Option Int
  deadlift : Option Int
  runTime : String
deriving DecidableEq

structure State where
  title : String
  pointsPreset : PointsPreset
  pointsCustom : List Int
  athletes : List Athlete
deriving DecidableEq

/-- The `{ eid, state }` payload of `makeEventKey`. -/
structure Payload where
  eid : String
  state : State
deriving DecidableEq

/-! ### JSON representations, with the key order of the source's object
literals (which is what `JSON.stringify` serializes). -/

def sexToJson : Sex → Json
  | .M => .str "M".data
  | .F => .str "F".data
  | .X => .str "X".data

def presetToJson : PointsPreset → Json
  | .F1 => .str "F1".data
  | .Simple => .str "Simple".data
  | .Custom => .str "Custom".data

def optIntToJson : Option Int → Json
  | none => .null
  | some i => .num i

def athleteToJson (a : Athlete) : Json :=
  .obj [("id".data, .str a.id.data), ("name".data, .str a.name.data),
        ("sex".data, sexToJson a.sex), ("age".data, optIntToJson a.age),
        ("bodyweight".data, optIntToJson a.bodyweight),
        ("squat".data, optIntToJson a.squat), ("bench".data, optIntToJson a.bench),
        ("deadlift".data, optIntToJson a.deadlift),
        ("runTime".data, .str a.runTime.data)]

def stateToJson (s : State) : Json :=
  .obj [("title".data, .str s.title.data),
        ("pointsPreset".data, presetToJson s.pointsPreset),
        ("pointsCustom".data, .arr (s.pointsCustom.map Json.num)),
        ("athletes".data, .arr (s.athletes.map athleteToJson))]

def payloadToJson (p : Payload) : Json :=
  .obj [("eid".data, .str p.eid.data), ("state".data, stateToJson p.state)]

/-! ### Partial inverses (structure readers for the parsed JSON). -/

def sexOfJson : Json → Option Sex
  | .str s =>
    if s = "M".data then some .M
    else if s = "F".data then some .F
    else if s = "X".data then some .X
    else none
  | _ => none

def presetOfJson : Json → Option PointsPreset
  | .str s =>
    if s = "F1".data then some .F1
    else if s = "Simple".data then some .Simple
    else if s = "Custom".data then some .Custom
    else none
  | _ => none

def optIntOfJson : Json → Option (Option Int)
  | .null => some none
  | .num i => some (some i)
  | _ => none

def intOfJson : Json → Option Int
  | .num i => some i
  | _ => none

def listOfJson (f : Json → Option α) : List Json → Option (List α)
  | [] => some []
  | j :: rest =>
    match f j, listOfJson f rest with
    | some x, some xs => some (x :: xs)
    | _, _ => none

def athleteOfJson : Json → Option Athlete
  | .obj [(k1, .str idv), (k2, .str namev), (k3, sexj), (k4, agej), (k5, bwj),
          (k6, sqj), (k7, bej), (k8, dlj), (k9, .str rtv)] =>
    if k1 = "id".data ∧ k2 = "name".data ∧ k3 = "sex".data ∧ k4 = "age".data ∧
        k5 = "bodyweight".data ∧ k6 = "squat".data ∧ k7 = "bench".data ∧
        k8 = "deadlift".data ∧ k9 = "runTime".data then
      match sexOfJson sexj, optIntOfJson agej, optIntOfJson bwj, optIntOfJson sqj,
          optIntOfJson bej, optIntOfJson dlj with
      | some sx, some ag, some bw, some sq, some be, some dl =>
          some ⟨String.mk idv, String.mk namev, sx, ag, bw, sq, be, dl, String.mk rtv⟩
      | _, _, _, _, _, _ => none
    else none
  | _ => none

def stateOfJson : Json → Option State
  | .obj [(k1, .str titlev), (k2, presetj), (k3, .arr customj), (k4, .arr athletesj)] =>
    if k1 = "title".data ∧ k2 = "pointsPreset".data ∧ k3 = "pointsCustom".data ∧
        k4 = "athletes".data then
      match presetOfJson presetj, listOfJson intOfJson customj,
          listOfJson athleteOfJson athletesj with
      | some pp, some pc, some ath => some ⟨String.mk titlev, pp, pc, ath⟩
      | _, _, _ => none
    else none
  | _ => none

def payloadOfJson : Json → Option Payload
  | .obj [(k1, .str eidv), (k2, statej)] =>
    if k1 = "eid".data ∧ k2 = "state".data then
      (stateOfJson statej).map (fun st => ⟨String.mk eidv, st⟩)
    else none
  | _ => none

/-! ## src/eventKey.ts

`makeEventKey` serializes the payload with `JSON.stringify`, UTF-8-encodes
it into a binary string (whose character codes are the bytes) and applies
`btoa`.  `readEventKey` trims the key, applies `atob`, decodes the bytes as
UTF-8 and applies `JSON.parse`, returning `null` (here `none`) if anything
throws; the parsed JSON is returned without structural validation, exactly
as the `as T` cast does. -/

def makeEventKey (payload : Payload) : String :=
  String.mk (btoaBytes (utf8Encode (jsonStr (payloadToJson payload))))

def readEventKey (key : String) : Option Json :=
  match atobChars (jsTrimList key.data) with
  | none => none
  | some bytes =>
    match utf8Decode bytes with
    | none => none
    | some chars => jsonParse chars

/-! ## src/storage.ts and src/App.tsx: event store and reconciliation

The localStorage slots `liftwin:event:<eid>` are modelled as an association
list read through `loadEvent`; `saveEvent` binds a key to a new value (the
most recent binding wins on lookup, as `localStorage.setItem` overwrites). -/

structure EventMeta where
  eid : String
  title : String
  createdAt : Nat
  updatedAt : Nat
deriving DecidableEq

def loadEvent (store : List (String × State)) (eid : String) : Option State :=
  store.lookup eid

def saveEvent (store : List (String × State)) (eid : String) (st : State) :
    List (String × State) :=
  (eid, st) :: store

/-- `App.tsx` `addOrForkEvent`.  `newEid` stands for the value
`crypto.randomUUID()` returns at the call sites of `newEid()`; the theorems
assume it is fresh, which is the generator's contract.  `now` is
`Date.now()`.  Returns the `{eid, state}` result together with the updated
store and index.  The content comparison is
`JSON.stringify(existing) === JSON.stringify(incomingState)`, i.e. equality
of the serialized texts. -/
def addOrForkEvent (store : List (String × State)) (index : List EventMeta)
    (payloadEid : Option String) (payloadState : State) (newEid : String)
    (now : Nat) : (String × State) × List (String × State) × List EventMeta :=
  let incomingState := payloadState
  let incomingEid := payloadEid.getD newEid
  match loadEvent store incomingEid with
  | none =>
    let store2 := saveEvent store incomingEid incomingState
    let meta : EventMeta := ⟨incomingEid, incomingState.title, now, now⟩
    ((incomingEid, incomingState), store2, meta :: index)
  | some existing =>
    if jsonStr (stateToJson existing) = jsonStr (stateToJson incomingState) then
      ((incomingEid, existing), store, index)
    else
      let eid := newEid
      let store2 := saveEvent store eid incomingState
      let meta : EventMeta := ⟨eid, incomingState.title, now, now⟩
      ((eid, incomingState), store2, meta :: index)

/-- A small concrete snapshot used to instantiate theorems with hypotheses. -/
def demoState : State :=
  { title := "Monthly Meet", pointsPreset := .F1, pointsCustom := [10, 7, 5, 3, 2, 1],
    athletes := [{ id := "a1", name := "Alex", sex := .M, age := some 30,
                   bodyweight := some 85, squat := none, bench := none,
                   deadlift := none, runTime := "" }] }

/-- `demoState` with a different title (a structurally different snapshot). -/
def demoState2 : State :=
  { demoState with title := "Spring Meet" }

/-- A snapshot with the `Custom` preset and an empty custom points list. -/
def demoCustom : State :=
  { title := "t", pointsPreset := .Custom, pointsCustom := [], athletes := [] }

/-! ## src/EventView.tsx: JS number model and time parsing

JS number values in the scoring layer are modelled as `JsNum`: NaN, the two
infinities, or a finite value carried as an exact rational.  Floating-point
rounding and overflow are outside the embedding: finite arithmetic is exact
rational arithmetic. -/

inductive JsNum where
  | nan : JsNum
  | inf : JsNum
  | negInf : JsNum
  | fin : ℚ → JsNum
deriving DecidableEq

def JsNum.isNaN : JsNum → Bool
  | .nan => true
  | _ => false

def jsNegNum : JsNum → JsNum
  | .nan => .nan
  | .inf => .negInf
  | .negInf => .inf
  | .fin q => .fin (-q)

def jsAdd : JsNum → JsNum → JsNum
  | .nan, _ => .nan
  | _, .nan => .nan
  | .inf, .negInf => .nan
  | .negInf, .inf => .nan
  | .inf, _ => .inf
  | _, .inf => .inf
  | .negInf, _ => .negInf
  | _, .negInf => .negInf
  | .fin a, .fin b => .fin (a + b)

def jsMul : JsNum → JsNum → JsNum
  | .nan, _ => .nan
  | _, .nan => .nan
  | .fin a, .fin b => .fin (a * b)
  | .inf, .inf => .inf
  | .inf, .negInf => .negInf
  | .negInf, .inf => .negInf
  | .negInf, .negInf => .inf
  | .inf, .fin b => if 0 < b then .inf else if b < 0 then .negInf else .nan
  | .fin a, .inf => if 0 < a then .inf else if a < 0 then .negInf else .nan
  | .negInf, .fin b => if 0 < b then .negInf else if b < 0 then .inf else .nan
  | .fin a, .negInf => if 0 < a then .negInf else if a < 0 then .inf else .nan

/-- Value of a (possibly empty) digit run, most significant digit first. -/
def digitsToNat (l : List Char) : Nat :=
  l.foldl (fun a c => a * 10 + (c.toNat - 48)) 0

def splitDigits (l : List Char) : List Char × List Char :=
  (l.takeWhile isDigitCh, l.dropWhile isDigitCh)

/-- StrUnsignedDecimalLiteral mantissa: `digits [. digits?]` or `. digits`;
returns its rational value and the unconsumed tail (a following exponent
part, or junk that makes the whole literal invalid). -/
def parseDecMantissa (l : List Char) : Option (ℚ × List Char) :=
  let d1 := l.takeWhile isDigitCh
  let r1 := l.dropWhile isDigitCh
  match r1 with
  | '.' :: r2 =>
    let d2 := r2.takeWhile isDigitCh
    let r3 := r2.dropWhile isDigitCh
    if d1 = [] ∧ d2 = [] then none
    else some ((digitsToNat d1 : ℚ) + (digitsToNat d2 : ℚ) / 10 ^ d2.length, r3)
  | _ => if d1 = [] then none else some ((digitsToNat d1 : ℚ), r1)

/-- Exponent part after the mantissa: empty, or `e`/`E` with optional sign
and a nonempty digit run consuming the whole remainder. -/
def parseExpTail (l : List Char) : Option Int :=
  match l with
  | [] => some 0
  | c :: r =>
    if c = 'e' ∨ c = 'E' then
      match r with
      | '+' :: r2 =>
        let (d, r3) := splitDigits r2
        if d = [] ∨ r3 ≠ [] then none else some (digitsToNat d : Int)
      | '-' :: r2 =>
        let (d, r3) := splitDigits r2
        if d = [] ∨ r3 ≠ [] then none else some (-(digitsToNat d : Int))
      | _ =>
        let (d, r3) := splitDigits r
        if d = [] ∨ r3 ≠ [] then none else some (digitsToNat d : Int)
    else none

def parseUnsignedDec (l : List Char) : Option ℚ :=
  match parseDecMantissa l with
  | none => none
  | some (m, rest) =>
    match parseExpTail rest with
    | none => none
    | some e => some (m * (10 : ℚ) ^ e)

/-- Signless part of a string numeric literal: `Infinity` or a decimal. -/
def parseUnsignedNum (l : List Char) : Option JsNum :=
  if l = "Infinity".data then some .inf
  else (parseUnsignedDec l).map .fin

/-- Digit run in radix `radix` via `val`, consuming everything. -/
def radixDigitsAux (radix : Nat) (val : Char → Option Nat) : List Char → Nat → Option Nat
  | [], acc => some acc
  | c :: r, acc =>
    match val c with
    | none => none
    | some v => radixDigitsAux radix val r (acc * radix + v)

/-- Nonempty digit run in radix `radix`, consuming everything. -/
def radixDigitsVal (radix : Nat) (val : Char → Option Nat) (l : List Char) : Option Nat :=
  match l with
  | [] => none
  | _ :: _ => radixDigitsAux radix val l 0

def octVal (c : Char) : Option Nat :=
  match hexVal c with
  | some v => if v < 8 then some v else none
  | none => none

def binVal (c : Char) : Option Nat :=
  match hexVal c with
  | some v => if v < 2 then some v else none
  | none => none

/-- Signless `0x`/`0o`/`0b` radix literal after a leading `0`: `some` if the
second character selects a radix (then NaN inside is a bad digit run). -/
def jsRadixPart (c : Char) (r : List Char) : Option JsNum :=
  if c = 'x' ∨ c = 'X' then
    some (match radixDigitsVal 16 hexVal r with
          | some n => .fin (n : ℚ)
          | none => .nan)
  else if c = 'o' ∨ c = 'O' then
    some (match radixDigitsVal 8 octVal r with
          | some n => .fin (n : ℚ)
          | none => .nan)
  else if c = 'b' ∨ c = 'B' then
    some (match radixDigitsVal 2 binVal r with
          | some n => .fin (n : ℚ)
          | none => .nan)
  else none

/-- ECMAScript `Number(string)` (StringToNumber): trims JS whitespace; empty
→ 0; optional sign followed by `Infinity` or a decimal literal; signless
`0x`/`0o`/`0b` radix literals; anything else is NaN. -/
def jsToNumber (s : List Char) : JsNum :=
  match jsTrimList s with
  | [] => .fin 0
  | c :: r =>
    if c = '+' then
      match parseUnsignedNum r with
      | some v => v
      | none => .nan
    else if c = '-' then
      match parseUnsignedNum r with
      | some v => jsNegNum v
      | none => .nan
    else if c = '0' then
      match r with
      | [] =>
        match parseUnsignedNum ['0'] with
        | some v => v
        | none => .nan
      | c2 :: r2 =>
        match jsRadixPart c2 r2 with
        | some v => v
        | none =>
          match parseUnsignedNum ('0' :: c2 :: r2) with
          | some v => v
          | none => .nan
    else
      match parseUnsignedNum (c :: r) with
      | some v => v
      | none => .nan

/-- `String.prototype.split` with a one-character separator. -/
def splitOn (sep : Char) : List Char → List (List Char)
  | [] => [[]]
  | c :: r =>
    if c = sep then [] :: splitOn sep r
    else
      match splitOn sep r with
      | [] => [[c]]
      | h :: t => (c :: h) :: t

/-- `EventView.tsx` `parseTimeToSeconds`.  `!time` is true for exactly the
empty string; each part is trimmed, rejected if empty or NaN, and converted
with `Number`; 1, 2 or 3 parts are combined, more give `null` (= `none`). -/
def parseTimeToSeconds (time : String) : Option JsNum :=
  if time = "" then none
  else
    let parts := (splitOn ':' time.data).map jsTrimList
    if parts.any (fun p => decide (p = []) || (jsToNumber p).isNaN) then none
    else
      match parts.map jsToNumber with
      | [a] => some a
      | [a, b] => some (jsAdd (jsMul a (.fin 60)) b)
      | [a, b, c] => some (jsAdd (jsAdd (jsMul a (.fin 3600)) (jsMul b (.fin 60))) c)
      | _ => none

/-! ## src/EventView.tsx: DOTS scoring and rank-based point allocation

Scores here are finite JS numbers modelled as exact rationals (`Option ℚ`,
`none` = `null`/unscored).  The decimal coefficient literals are exact
rationals, so `isFinite(denom)` is always true in this model and only the
`denom === 0` guard remains. -/

structure DotsCoeff where
  A : ℚ
  B : ℚ
  C : ℚ
  D : ℚ
  E : ℚ
  F : ℚ
deriving DecidableEq

def DOTS_COEFF_M : DotsCoeff :=
  ⟨47.46178854, 8.472061379, 0.07369410346, -0.001395833811,
   0.00000707665973070743, -0.0000000120804336482315⟩

def DOTS_COEFF_F : DotsCoeff :=
  ⟨-125.4255398, 13.71219419, -0.03307250631, -0.001050400051,
   0.00000938773881462799, -0.000000023334613884954⟩

def dotsDenom (k : DotsCoeff) (x : ℚ) : ℚ :=
  k.A + k.B * x + k.C * x ^ 2 + k.D * x ^ 3 + k.E * x ^ 4 + k.F * x ^ 5

/-- JS falsiness of a `number | null` value: `null`, `0` (and NaN, absent
from this model) are falsy. -/
def optFalsy (x : Option ℚ) : Bool :=
  match x with
  | none => true
  | some q => decide (q = 0)

/-- JS `x <= 0` on a `number | null` value (`null <= 0` is true). -/
def jsLeZero (x : Option ℚ) : Bool :=
  match x with
  | none => true
  | some q => decide (q ≤ 0)

/-- `EventView.tsx` `dotsPoints`. -/
def dotsPoints (totalKg bodyweightKg : Option ℚ) (sex : Sex) : Option ℚ :=
  if optFalsy totalKg || optFalsy bodyweightKg || jsLeZero bodyweightKg then none
  else
    match (match sex with
           | .F => some DOTS_COEFF_F
           | .M => some DOTS_COEFF_M
           | .X => none) with
    | none => none
    | some k =>
      let x := bodyweightKg.getD 0
      let denom := dotsDenom k x
      if denom = 0 then none else some (600 / denom * totalKg.getD 0)

/-- Sum of `pointsTable[k] ?? 0` for the `n` ranks starting at `start`. -/
def rankSum (table : List ℚ) (start n : Nat) : ℚ :=
  (List.range n).foldl (fun acc k => acc + table.getD (start + k) 0) 0

/-- One `while` iteration step of `allocatePointsByRank`, fuel-bounded; the
fuel only needs to exceed the number of loop iterations, each of which
consumes at least one entry. -/
def allocGoF (table : List ℚ) : Nat → Nat → List (String × Option ℚ) → List (String × ℚ)
  | 0, _, _ => []
  | fuel + 1, rank, l =>
    match l with
    | [] => []
    | (i, score) :: rest =>
      match score with
      | none => (i, (0 : ℚ)) :: rest.map (fun e => (e.1, (0 : ℚ)))
      | some q =>
        let tie := rest.takeWhile (fun e => e.2 == some q)
        let rest2 := rest.dropWhile (fun e => e.2 == some q)
        let n := tie.length + 1
        let perHead := rankSum table rank n / (n : ℚ)
        ((i, score) :: tie).map (fun e => (e.1, perHead))
          ++ allocGoF table fuel (rank + n) rest2

/-- `EventView.tsx` `allocatePointsByRank`: the result `Record` is the
association list of assignments in insertion order. -/
def allocatePointsByRank (sortedScores : List (String × Option ℚ))
    (table : List ℚ) : List (String × ℚ) :=
  allocGoF table sortedScores.length 0 sortedScores

/-- Comparator truth of the score sort: scored entries descending, all
unscored entries after all scored ones. -/
def scoreOrdB : Option ℚ → Option ℚ → Bool
  | some a, some b => decide (b ≤ a)
  | some _, none => true
  | none, none => true
  | none, some _ => false

def F1_POINTS : List ℚ := [25, 18, 15, 12, 10, 8, 6, 4, 2, 1]

def SIMPLE_POINTS : List ℚ := [10, 7, 5, 3, 2, 1]

/-- `EventView.tsx` `pointsTable` (and the identical legacy copy): the table
for a state; custom entries are integers in the data model, injected into
ℚ for scoring. -/
def intsToRats (l : List Int) : List ℚ :=
  l.map (fun n => ((n : Int) : ℚ))

def pointsTable (st : State) : List ℚ :=
  if st.pointsPreset = .F1 then F1_POINTS
  else if st.pointsPreset = .Simple then SIMPLE_POINTS
  else if st.pointsCustom.length ≠ 0 then intsToRats st.pointsCustom
  else SIMPLE_POINTS

/-! ## URL fragment matching (App.tsx, eventKey.ts, legacy app)

First-match semantics of `/[#&]k=([^&]+)/`: scan left to right for a `#` or
`&` followed by `k=` and at least one non-`&` character; the capture is the
maximal run of non-`&` characters. -/

/-- Attempted match of `k=([^&]+)` directly after a `#`/`&` separator:
`some` capture on success, `none` if the scan must move on. -/
def kTry (rest : List Char) : Option (List Char) :=
  match rest with
  | k :: e :: r =>
    if k = 'k' ∧ e = '=' then
      match r.takeWhile (fun d => !(d == '&')) with
      | [] => none
      | c0 :: cap => some (c0 :: cap)
    else none
  | _ => none

def kCapture : List Char → Option (List Char)
  | [] => none
  | c :: rest =>
    if c = '#' ∨ c = '&' then
      match kTry rest with
      | some cap => some cap
      | none => kCapture rest
    else kCapture rest

/-- Byte stream of a percent-encoded string: `%XY` hex pairs become single
bytes, other characters contribute their UTF-8 bytes; a `%` not followed by
two hex digits is a URIError (`none`). -/
def pctBytes : List Char → Option (List Nat)
  | [] => some []
  | c :: rest =>
    if c = '%' then
      match rest with
      | h1 :: h2 :: r =>
        match hexVal h1, hexVal h2 with
        | some a, some b => (pctBytes r).map (fun bs => (a * 16 + b) :: bs)
        | _, _ => none
      | _ => none
    else (pctBytes rest).map (fun bs => utf8EncodeChar c ++ bs)

/-- `decodeURIComponent`, `none` for a thrown URIError.  Escaped bytes must
form valid UTF-8; literal characters round-trip through their own UTF-8
bytes, which cannot complete or extend a malformed escape run, so decoding
the concatenated byte stream agrees with the per-run ECMAScript algorithm. -/
def decodeURIComponent (l : List Char) : Option (List Char) :=
  (pctBytes l).bind utf8Decode

/-- `eventKey.ts` `extractKeyFromUrl` (try/catch gives `null` on a URIError). -/
def extractKeyFromUrl (text : List Char) : Option (List Char) :=
  match kCapture text with
  | none => none
  | some m => decodeURIComponent m

/-- The token-extraction prefix of `App.tsx` `importFromHash` (lines 60–62):
match `location.hash` and percent-decode the capture. -/
def importKeyFromHash (hash : List Char) : Option (List Char) :=
  match kCapture hash with
  | none => none
  | some m => decodeURIComponent m

/-- Character class `[A-Za-z0-9-]` of the legacy event-id pattern. -/
def isEidChar (c : Char) : Bool :=
  (65 ≤ c.toNat && c.toNat ≤ 90) || (97 ≤ c.toNat && c.toNat ≤ 122) ||
    (48 ≤ c.toNat && c.toNat ≤ 57) || c == '-'

/-- First-match semantics of `/event=([A-Za-z0-9-]+)/`. -/
def eventCapture : List Char → Option (List Char)
  | [] => none
  | c :: rest =>
    if (c :: rest).take 6 = "event=".data then
      match ((c :: rest).drop 6).takeWhile isEidChar with
      | [] => eventCapture rest
      | c0 :: cap => some (c0 :: cap)
    else eventCapture rest

/-- `hash.replace(/^#/, "")`. -/
def stripHashPrefix : List Char → List Char
  | '#' :: r => r
  | l => l

/-- Legacy app `initialEventId`: the captured event id from the hash, or a
fresh `crypto.randomUUID()` value (passed as `fresh`). -/
def initialEventId (hash : List Char) (fresh : List Char) : List Char :=
  match eventCapture (stripHashPrefix hash) with
  | some m => m
  | none => fresh

/-! ### Base64 round-trip lemmas -/

theorem b64Val_b64Char : ∀ v < 64, b64Val (b64Char v) = some v := by decide

theorem b64Char_ne_eq : ∀ v < 64, b64Char v ≠ '=' := by decide

theorem b64Char_not_ws : ∀ v < 64, isAsciiWsB64 (b64Char v) = false := by decide

theorem btoa_chars (bs : List Nat) (hb : ∀ b ∈ bs, b < 256) :
    ∀ c ∈ btoaBytes bs, c = '=' ∨ ∃ v, v < 64 ∧ c = b64Char v := by
  induction bs using btoaBytes.induct with
  | case1 => intro c hc; simp [btoaBytes] at hc
  | case2 a =>
    have ha : a < 256 := hb a (by simp)
    intro c hc
    simp only [btoaBytes, List.mem_cons, List.not_mem_nil, or_false] at hc
    rcases hc with h | h | h | h
    · exact Or.inr ⟨a / 4, by omega, h⟩
    · exact Or.inr ⟨a % 4 * 16, by omega, h⟩
    · exact Or.inl h
    · exact Or.inl h
  | case3 a b =>
    have ha : a < 256 := hb a (by simp)
    have hbb : b < 256 := hb b (by simp)
    intro c hc
    simp only [btoaBytes, List.mem_cons, List.not_mem_nil, or_false] at hc
    rcases hc with h | h | h | h
    · exact Or.inr ⟨a / 4, by omega, h⟩
    · exact Or.inr ⟨a % 4 * 16 + b / 16, by omega, h⟩
    · exact Or.inr ⟨b % 16 * 4, by omega, h⟩
    · exact Or.inl h
  | case4 a b c rest ih =>
    have ha : a < 256 := hb a (by simp)
    have hbb : b < 256 := hb b (by simp)
    have hcc : c < 256 := hb c (by simp)
    have hrest : ∀ x ∈ rest, x < 256 := fun x hx => hb x (by simp [hx])
    intro x hx
    simp only [btoaBytes, List.mem_cons] at hx
    rcases hx with h | h | h | h | h
    · exact Or.inr ⟨a / 4, by omega, h⟩
    · exact Or.inr ⟨a % 4 * 16 + b / 16, by omega, h⟩
    · exact Or.inr ⟨b % 16 * 4 + c / 64, by omega, h⟩
    · exact Or.inr ⟨c % 64, by omega, h⟩
    · exact ih hrest x h

theorem btoa_filter_ws (bs : List Nat) (hb : ∀ b ∈ bs, b < 256) :
    (btoaBytes bs).filter (fun c => !isAsciiWsB64 c) = btoaBytes bs := by
  rw [List.filter_eq_self]
  intro c hc
  rcases btoa_chars bs hb c hc with h | ⟨v, hv, h⟩
  · subst h; decide
  · subst h; simp [b64Char_not_ws v hv]

theorem btoa_length_mod (bs : List Nat) : (btoaBytes bs).length % 4 = 0 := by
  induction bs using btoaBytes.induct with
  | case1 => simp [btoaBytes]
  | case2 a => simp [btoaBytes]
  | case3 a b => simp [btoaBytes]
  | case4 a b c rest ih =>
    simp only [btoaBytes, List.length_cons]
    omega

theorem btoa_length_pos (x : Nat) (xs : List Nat) :
    4 ≤ (btoaBytes (x :: xs)).length := by
  rcases xs with _ | ⟨b, xs⟩
  · simp [btoaBytes]
  · rcases xs with _ | ⟨c, xs⟩
    · simp [btoaBytes]
    · simp only [btoaBytes, List.length_cons]
      omega

theorem dropPad_cons2 (y1 y2 : Char) (t : List Char) :
    dropPad (y1 :: y2 :: t)
      = if y1 = '=' then (if y2 = '=' then t else y2 :: t) else y1 :: y2 :: t := by
  by_cases h1 : y1 = '=' <;> by_cases h2 : y2 = '=' <;> simp [dropPad, h1, h2]

theorem stripBase64Pad_append (xs ys : List Char) (h : 2 ≤ ys.length) :
    stripBase64Pad (xs ++ ys) = xs ++ stripBase64Pad ys := by
  obtain ⟨y1, y2, yr, hys⟩ : ∃ y1 y2 yr, ys.reverse = y1 :: y2 :: yr := by
    rcases hr : ys.reverse with _ | ⟨a, t⟩
    · have : ys = [] := by simpa using congrArg List.reverse hr
      subst this; simp at h
    · rcases t with _ | ⟨b, t⟩
      · have : ys = [a] := by simpa using congrArg List.reverse hr
        subst this; simp at h
      · exact ⟨a, b, t, rfl⟩
  have h1 : (xs ++ ys).reverse = y1 :: y2 :: (yr ++ xs.reverse) := by
    simp [List.reverse_append, hys]
  unfold stripBase64Pad
  rw [h1, hys, dropPad_cons2, dropPad_cons2]
  by_cases hy1 : y1 = '=' <;> by_cases hy2 : y2 = '=' <;>
    simp [hy1, hy2, List.reverse_append]

theorem strip_btoa (bs : List Nat) :
    stripBase64Pad (btoaBytes bs) = btoaStripped bs := by
  induction bs using btoaBytes.induct with
  | case1 => rfl
  | case2 a =>
    have h1 : b64Char (a % 4 * 16) ≠ '=' := b64Char_ne_eq _ (by omega)
    show stripBase64Pad [b64Char (a / 4), b64Char (a % 4 * 16), '=', '='] = _
    unfold stripBase64Pad
    rw [show ([b64Char (a / 4), b64Char (a % 4 * 16), '=', '='] : List Char).reverse
        = '=' :: '=' :: [b64Char (a % 4 * 16), b64Char (a / 4)] from by simp]
    rw [dropPad_cons2]
    simp [btoaStripped]
  | case3 a b =>
    have h1 : b64Char (b % 16 * 4) ≠ '=' := b64Char_ne_eq _ (by omega)
    show stripBase64Pad [b64Char (a / 4), b64Char (a % 4 * 16 + b / 16),
      b64Char (b % 16 * 4), '='] = _
    unfold stripBase64Pad
    rw [show ([b64Char (a / 4), b64Char (a % 4 * 16 + b / 16),
        b64Char (b % 16 * 4), '='] : List Char).reverse
        = '=' :: b64Char (b % 16 * 4) :: [b64Char (a % 4 * 16 + b / 16),
          b64Char (a / 4)] from by simp]
    rw [dropPad_cons2]
    simp [h1, btoaStripped]
  | case4 a b c rest ih =>
    rcases rest with _ | ⟨x, xs⟩
    · have h4 : b64Char (c % 64) ≠ '=' := b64Char_ne_eq _ (by omega)
      show stripBase64Pad [b64Char (a / 4), b64Char (a % 4 * 16 + b / 16),
        b64Char (b % 16 * 4 + c / 64), b64Char (c % 64)] = _
      unfold stripBase64Pad
      rw [show ([b64Char (a / 4), b64Char (a % 4 * 16 + b / 16),
          b64Char (b % 16 * 4 + c / 64), b64Char (c % 64)] : List Char).reverse
          = b64Char (c % 64) :: b64Char (b % 16 * 4 + c / 64) ::
            [b64Char (a % 4 * 16 + b / 16), b64Char (a / 4)] from by simp]
      rw [dropPad_cons2]
      simp [h4, btoaStripped]
    · have hchunk : btoaBytes (a :: b :: c :: x :: xs)
          = [b64Char (a / 4), b64Char (a % 4 * 16 + b / 16),
             b64Char (b % 16 * 4 + c / 64), b64Char (c % 64)] ++ btoaBytes (x :: xs) := by
        simp [btoaBytes]
      rw [hchunk, stripBase64Pad_append _ _ (by
        have := btoa_length_pos x xs
        omega), ih]
      simp [btoaStripped]

theorem btoaStripped_length_mod (bs : List Nat) :
    (btoaStripped bs).length % 4 ≠ 1 := by
  induction bs using btoaStripped.induct with
  | case1 => simp [btoaStripped]
  | case2 a => simp [btoaStripped]
  | case3 a b => simp [btoaStripped]
  | case4 a b c rest ih => simp [btoaStripped, List.length_cons]; omega

theorem decode_btoaStripped (bs : List Nat) (h : ∀ b ∈ bs, b < 256) :
    b64DecodeGroups (btoaStripped bs) = some bs := by
  induction bs using btoaStripped.induct with
  | case1 => rfl
  | case2 a =>
    have ha : a < 256 := h a (by simp)
    show b64DecodeGroups [b64Char (a / 4), b64Char (a % 4 * 16)] = _
    unfold b64DecodeGroups
    rw [b64Val_b64Char _ (by omega : a / 4 < 64),
        b64Val_b64Char _ (by omega : a % 4 * 16 < 64)]
    simp only
    congr 2
    omega
  | case3 a b =>
    have ha : a < 256 := h a (by simp)
    have hbb : b < 256 := h b (by simp)
    show b64DecodeGroups [b64Char (a / 4), b64Char (a % 4 * 16 + b / 16),
      b64Char (b % 16 * 4)] = _
    unfold b64DecodeGroups
    rw [b64Val_b64Char _ (by omega : a / 4 < 64),
        b64Val_b64Char _ (by omega : a % 4 * 16 + b / 16 < 64),
        b64Val_b64Char _ (by omega : b % 16 * 4 < 64)]
    simp only
    congr 2
    · omega
    · congr 1
      omega
  | case4 a b c rest ih =>
    have ha : a < 256 := h a (by simp)
    have hbb : b < 256 := h b (by simp)
    have hcc : c < 256 := h c (by simp)
    have hrest : ∀ x ∈ rest, x < 256 := fun x hx => h x (by simp [hx])
    show b64DecodeGroups (b64Char (a / 4) :: b64Char (a % 4 * 16 + b / 16) ::
      b64Char (b % 16 * 4 + c / 64) :: b64Char (c % 64) :: btoaStripped rest) = _
    unfold b64DecodeGroups
    rw [b64Val_b64Char _ (by omega : a / 4 < 64),
        b64Val_b64Char _ (by omega : a % 4 * 16 + b / 16 < 64),
        b64Val_b64Char _ (by omega : b % 16 * 4 + c / 64 < 64),
        b64Val_b64Char _ (by omega : c % 64 < 64), ih hrest]
    simp only
    congr 2
    · omega
    · congr 1
      · omega
      · congr 1
        omega

/-- `atob` inverts `btoa` on every byte list. -/
theorem atob_btoa (bs : List Nat) (h : ∀ b ∈ bs, b < 256) :
    atobChars (btoaBytes bs) = some bs := by
  simp only [atobChars, btoa_filter_ws bs h, btoa_length_mod bs, eq_self_iff_true,
    if_true, strip_btoa, if_neg (btoaStripped_length_mod bs)]
  exact decode_btoaStripped bs h

/-! ### UTF-8 round-trip lemmas -/

theorem char_toNat_valid (c : Char) :
    c.toNat < 0xD800 ∨ (0xDFFF < c.toNat ∧ c.toNat < 0x110000) := by
  have h := c.valid
  rcases h with h | h
  · exact Or.inl h
  · exact Or.inr h

theorem char_toNat_lt (c : Char) : c.toNat < 0x110000 := by
  rcases char_toNat_valid c with h | h
  · omega
  · omega

theorem utf8EncodeChar_lt (c : Char) : ∀ b ∈ utf8EncodeChar c, b < 256 := by
  have hlt := char_toNat_lt c
  intro b hb
  unfold utf8EncodeChar at hb
  split at hb
  · simp only [List.mem_cons, List.not_mem_nil, or_false] at hb
    omega
  · split at hb
    · simp only [List.mem_cons, List.not_mem_nil, or_false] at hb
      rcases hb with h | h <;> omega
    · split at hb
      · simp only [List.mem_cons, List.not_mem_nil, or_false] at hb
        rcases hb with h | h | h <;> omega
      · simp only [List.mem_cons, List.not_mem_nil, or_false] at hb
        rcases hb with h | h | h | h <;> omega

theorem utf8Encode_lt (l : List Char) : ∀ b ∈ utf8Encode l, b < 256 := by
  induction l with
  | nil => intro b hb; simp [utf8Encode] at hb
  | cons c cs ih =>
    intro b hb
    simp only [utf8Encode, List.map_cons, List.flatten_cons, List.mem_append] at hb
    rcases hb with h | h
    · exact utf8EncodeChar_lt c b h
    · exact ih b h

theorem nat_digits3 (a : Nat) :
    a / 4096 * 4096 + a / 64 % 64 * 64 + a % 64 = a := by
  have h3 : a / 64 / 64 = a / 4096 := by rw [Nat.div_div_eq_div_mul]
  generalize hu : a / 64 = u at *
  omega

theorem nat_digits4 (a : Nat) :
    a / 262144 * 262144 + a / 4096 % 64 * 4096 + a / 64 % 64 * 64 + a % 64 = a := by
  have h3 : a / 64 / 64 = a / 4096 := by rw [Nat.div_div_eq_div_mul]
  have h4 : a / 4096 / 64 = a / 262144 := by rw [Nat.div_div_eq_div_mul]
  generalize hu : a / 64 = u at *
  generalize hw : a / 4096 = w at *
  omega

theorem utf8DecodeOne_encodeChar (c : Char) (bs : List Nat) :
    utf8DecodeOne (utf8EncodeChar c ++ bs) = some (c.toNat, bs) := by
  rcases char_toNat_valid c with hv | hv
  all_goals (
    have hd3 := nat_digits3 c.toNat
    have hd4 := nat_digits4 c.toNat
    have hm1 : c.toNat / 64 % 64 < 64 := Nat.mod_lt _ (by omega)
    have hm2 : c.toNat / 4096 % 64 < 64 := Nat.mod_lt _ (by omega)
    unfold utf8EncodeChar
    by_cases h1 : c.toNat < 0x80
    · rw [if_pos h1]
      show utf8DecodeOne (c.toNat :: bs) = _
      simp only [utf8DecodeOne]
      rw [if_pos h1]
    · rw [if_neg h1]
      by_cases h2 : c.toNat < 0x800
      · rw [if_pos h2]
        show utf8DecodeOne ((0xC0 + c.toNat / 64) :: (0x80 + c.toNat % 64) :: bs) = _
        simp only [utf8DecodeOne]
        rw [if_neg (by omega), if_neg (by omega), if_pos (by omega)]
        rw [if_pos (by omega)]
        simp only [Option.some.injEq, Prod.mk.injEq]
        exact ⟨by omega, trivial⟩
      · rw [if_neg h2]
        by_cases h3 : c.toNat < 0x10000
        · rw [if_pos h3]
          show utf8DecodeOne ((0xE0 + c.toNat / 4096) :: (0x80 + c.toNat / 64 % 64) ::
            (0x80 + c.toNat % 64) :: bs) = _
          simp only [utf8DecodeOne]
          rw [if_neg (by omega), if_neg (by omega), if_neg (by omega),
              if_pos (by omega)]
          rw [if_pos (by omega)]
          simp only [Option.some.injEq, Prod.mk.injEq]
          exact ⟨by omega, trivial⟩
        · rw [if_neg h3]
          show utf8DecodeOne ((0xF0 + c.toNat / 262144) :: (0x80 + c.toNat / 4096 % 64) ::
            (0x80 + c.toNat / 64 % 64) :: (0x80 + c.toNat % 64) :: bs) = _
          simp only [utf8DecodeOne]
          rw [if_neg (by omega), if_neg (by omega), if_neg (by omega),
              if_neg (by omega), if_pos (by omega)]
          rw [if_pos (by omega)]
          simp only [Option.some.injEq, Prod.mk.injEq]
          exact ⟨by omega, trivial⟩)

theorem utf8EncodeChar_cons (c : Char) :
    ∃ x xs, utf8EncodeChar c = x :: xs := by
  unfold utf8EncodeChar
  split
  · exact ⟨_, _, rfl⟩
  · split
    · exact ⟨_, _, rfl⟩
    · split
      · exact ⟨_, _, rfl⟩
      · exact ⟨_, _, rfl⟩

theorem utf8Encode_length_ge (s : List Char) : s.length ≤ (utf8Encode s).length := by
  induction s with
  | nil => simp [utf8Encode]
  | cons c cs ih =>
    obtain ⟨x, xs, hx⟩ := utf8EncodeChar_cons c
    simp only [utf8Encode, List.map_cons, List.flatten_cons, List.length_append,
      List.length_cons] at *
    rw [hx]
    simp only [List.length_cons]
    omega

theorem utf8DecodeF_encode (s : List Char) : ∀ fuel, s.length < fuel →
    utf8DecodeF fuel (utf8Encode s) = some s := by
  induction s with
  | nil =>
    intro fuel h
    show utf8DecodeF fuel [] = some []
    cases fuel <;> rfl
  | cons c cs ih =>
    intro fuel h
    obtain ⟨f, rfl⟩ : ∃ f, fuel = f + 1 := by
      cases fuel
      · simp at h
      · exact ⟨_, rfl⟩
    obtain ⟨x, xs, hx⟩ := utf8EncodeChar_cons c
    have hone : utf8DecodeOne (x :: (xs ++ utf8Encode cs)) = some (c.toNat, utf8Encode cs) := by
      have := utf8DecodeOne_encodeChar c (utf8Encode cs)
      rw [hx] at this
      simpa using this
    have hl : utf8Encode (c :: cs) = x :: (xs ++ utf8Encode cs) := by
      simp [utf8Encode, hx]
    rw [hl]
    show utf8DecodeF (f + 1) (x :: (xs ++ utf8Encode cs)) = _
    rw [utf8DecodeF, hone]
    dsimp only
    have hcs : cs.length < f := by
      simp only [List.length_cons] at h
      omega
    rw [ih f hcs]
    dsimp only [Option.map]
    rw [Char.ofNat_toNat]

/-- `TextDecoder` inverts `TextEncoder` on every character list. -/
theorem utf8Decode_utf8Encode (l : List Char) : utf8Decode (utf8Encode l) = some l := by
  unfold utf8Decode
  exact utf8DecodeF_encode l _ (by have := utf8Encode_length_ge l; omega)

/-! ### Number round-trip lemmas -/

theorem char_ne (c d : Char) (h : c.toNat ≠ d.toNat) : c ≠ d :=
  fun he => h (congrArg Char.toNat he)

theorem digitChar_digit : ∀ m < 10, isDigitCh (Nat.digitChar m) = true := by decide

theorem digitChar_val : ∀ m < 10, (Nat.digitChar m).toNat - 48 = m := by decide

theorem digitChar_ne_zero : ∀ m < 10, 0 < m → Nat.digitChar m ≠ '0' := by decide

theorem isDigitCh_toNat (c : Char) (h : isDigitCh c = true) :
    48 ≤ c.toNat ∧ c.toNat ≤ 57 := by
  simp only [isDigitCh, Bool.and_eq_true, decide_eq_true_eq] at h
  exact h

theorem isJsonWs_char (c : Char) (h : isJsonWs c = true) :
    c = ' ' ∨ c = '\t' ∨ c = '\n' ∨ c = '\r' := by
  simp only [isJsonWs, Bool.or_eq_true, beq_iff_eq] at h
  tauto

theorem isJsonWs_false_of_digit (c : Char) (h : isDigitCh c = true) :
    isJsonWs c = false := by
  have hb := isDigitCh_toNat c h
  by_contra hw
  simp only [Bool.not_eq_false] at hw
  rcases isJsonWs_char c hw with h1 | h1 | h1 | h1 <;>
    (subst h1; revert hb; decide)

theorem natToCharsAux_digits (n : Nat) : ∀ c ∈ natToCharsAux n, isDigitCh c = true := by
  induction n using Nat.strong_induction_on with
  | _ n ih =>
    intro c hc
    unfold natToCharsAux at hc
    split at hc
    · simp at hc
    · rename_i hn
      simp only [List.mem_cons] at hc
      rcases hc with h | h
      · subst h
        exact digitChar_digit _ (by omega)
      · exact ih (n / 10) (Nat.div_lt_self (by omega) (by omega)) c h

theorem natToChars_digits (n : Nat) : ∀ c ∈ natToChars n, isDigitCh c = true := by
  intro c hc
  unfold natToChars at hc
  split at hc
  · simp only [List.mem_cons, List.not_mem_nil, or_false] at hc
    subst hc
    decide
  · exact natToCharsAux_digits n c (by simpa using hc)

theorem natToChars_head (n : Nat) (h : n ≠ 0) :
    ∃ c cs, natToChars n = c :: cs ∧ isDigitCh c = true ∧ c ≠ '0' := by
  induction n using Nat.strong_induction_on with
  | _ n ih =>
    rw [natToChars, if_neg h]
    rw [natToCharsAux, if_neg h]
    by_cases h10 : n / 10 = 0
    · rw [natToCharsAux, if_pos h10]
      refine ⟨Nat.digitChar (n % 10), [], by simp, digitChar_digit _ (by omega), ?_⟩
      exact digitChar_ne_zero _ (by omega) (by omega)
    · obtain ⟨c, cs, hcs, hdig, hne⟩ := ih (n / 10) (Nat.div_lt_self (by omega) (by omega)) h10
      rw [natToChars, if_neg h10] at hcs
      refine ⟨c, cs ++ [Nat.digitChar (n % 10)], ?_, hdig, hne⟩
      simp [hcs]

theorem parseDigitsAux_spec (ds : List Char) (hd : ∀ c ∈ ds, isDigitCh c = true)
    (rest : List Char) (hr : headNotDigit rest = true) (acc : Nat) :
    parseDigitsAux (ds ++ rest) acc
      = (ds.foldl (fun a c => a * 10 + (c.toNat - 48)) acc, rest) := by
  induction ds generalizing acc with
  | nil =>
    simp only [List.nil_append, List.foldl_nil]
    cases rest with
    | nil => rfl
    | cons c r =>
      simp only [headNotDigit, Bool.not_eq_true'] at hr
      unfold parseDigitsAux
      rw [if_neg (by rw [hr]; exact Bool.false_ne_true)]
  | cons d ds ih =>
    have hdd : isDigitCh d = true := hd d (by simp)
    simp only [List.cons_append, List.foldl_cons]
    unfold parseDigitsAux
    rw [if_pos hdd]
    exact ih (fun c hc => hd c (by simp [hc])) _

theorem foldl_natToCharsAux (n : Nat) : ∀ acc,
    ((natToCharsAux n).reverse).foldl (fun a c => a * 10 + (c.toNat - 48)) acc
      = acc * 10 ^ (natToCharsAux n).length + n := by
  induction n using Nat.strong_induction_on with
  | _ n ih =>
    intro acc
    by_cases h : n = 0
    · subst h
      rw [natToCharsAux]
      simp
    · rw [natToCharsAux, if_neg h]
      simp only [List.reverse_cons, List.foldl_append, List.foldl_cons, List.foldl_nil,
        List.length_cons]
      rw [ih (n / 10) (Nat.div_lt_self (by omega) (by omega)) acc]
      rw [digitChar_val _ (by omega)]
      rw [pow_succ]
      ring_nf
      omega

theorem foldl_natToChars (n : Nat) :
    (natToChars n).foldl (fun a c => a * 10 + (c.toNat - 48)) 0 = n := by
  by_cases h : n = 0
  · subst h; decide
  · rw [natToChars, if_neg h, foldl_natToCharsAux]
    simp

theorem parseNatNum_natToChars (n : Nat) (rest : List Char)
    (hr : headNotDigit rest = true) :
    parseNatNum (natToChars n ++ rest) = some (n, rest) := by
  by_cases h : n = 0
  · subst h
    show parseNatNum ('0' :: rest) = _
    unfold parseNatNum
    dsimp only
    rw [if_pos rfl, if_pos hr]
  · obtain ⟨c, cs, hcs, hdig, hne⟩ := natToChars_head n h
    rw [hcs]
    show parseNatNum (c :: (cs ++ rest)) = _
    unfold parseNatNum
    dsimp only
    rw [if_neg hne, if_pos hdig]
    have hds : ∀ x ∈ c :: cs, isDigitCh x = true := by
      intro x hx
      exact natToChars_digits n x (by rw [hcs]; exact hx)
    have := parseDigitsAux_spec (c :: cs) hds rest hr 0
    simp only [List.cons_append] at this
    rw [this]
    have hf := foldl_natToChars n
    rw [hcs] at hf
    rw [hf]

theorem parseNumber_intToChars (i : Int) (rest : List Char)
    (hr : headNotDigit rest = true) :
    parseNumber (intToChars i ++ rest) = some (i, rest) := by
  by_cases h : i < 0
  · rw [intToChars, if_pos h]
    show parseNumber ('-' :: (natToChars i.natAbs ++ rest)) = _
    rw [show parseNumber ('-' :: (natToChars i.natAbs ++ rest))
        = (parseNatNum (natToChars i.natAbs ++ rest)).map
            (fun p => (-(p.1 : Int), p.2)) from rfl]
    rw [parseNatNum_natToChars _ _ hr]
    show some (-(i.natAbs : Int), rest) = some (i, rest)
    rw [show -(i.natAbs : Int) = i from by omega]
  · rw [intToChars, if_neg h]
    obtain ⟨c, cs, hcs⟩ : ∃ c cs, natToChars i.natAbs = c :: cs := by
      by_cases h0 : i.natAbs = 0
      · exact ⟨'0', [], by rw [h0]; rfl⟩
      · obtain ⟨c, cs, hcs, _, _⟩ := natToChars_head _ h0
        exact ⟨c, cs, hcs⟩
    have hdig : isDigitCh c = true :=
      natToChars_digits _ c (by rw [hcs]; simp)
    rw [hcs]
    show parseNumber (c :: (cs ++ rest)) = _
    rw [parseNumber.eq_def]
    dsimp only
    rw [if_neg (char_ne c '-' (by
      have h2 := isDigitCh_toNat c hdig
      have h3 : ('-').toNat = 45 := rfl
      omega))]
    have := parseNatNum_natToChars i.natAbs rest hr
    rw [hcs] at this
    simp only [List.cons_append] at this
    rw [this]
    show some ((i.natAbs : Int), rest) = some (i, rest)
    rw [show ((i.natAbs : Int)) = i from by omega]

/-! ### String-literal round-trip lemmas -/

theorem hexVal_digitChar : ∀ m < 16, hexVal (Nat.digitChar m) = some m := by decide

theorem escapeJsonChar_len (c : Char) : 1 ≤ (escapeJsonChar c).length := by
  unfold escapeJsonChar
  repeat' split
  all_goals simp

theorem escape_flatten_len (s : List Char) :
    s.length ≤ ((s.map escapeJsonChar).flatten).length := by
  induction s with
  | nil => simp
  | cons c cs ih =>
    simp only [List.map_cons, List.flatten_cons, List.length_append, List.length_cons]
    have := escapeJsonChar_len c
    omega

theorem parseStringStep_escape (c : Char) (tail : List Char) :
    parseStringStep (escapeJsonChar c ++ tail) = some (some c, tail) := by
  by_cases h1 : c = '"'
  · subst h1
    rfl
  · by_cases h2 : c = '\\'
    · subst h2
      rfl
    · by_cases h3 : c.toNat = 8
      · rw [escapeJsonChar, if_neg h1, if_neg h2, if_pos h3]
        rw [show parseStringStep (['\\', 'b'] ++ tail)
            = some (some (Char.ofNat 8), tail) from rfl]
        rw [← h3, Char.ofNat_toNat]
      · by_cases h4 : c.toNat = 9
        · rw [escapeJsonChar, if_neg h1, if_neg h2, if_neg h3, if_pos h4]
          rw [show parseStringStep (['\\', 't'] ++ tail)
              = some (some (Char.ofNat 9), tail) from rfl]
          rw [← h4, Char.ofNat_toNat]
        · by_cases h5 : c.toNat = 10
          · rw [escapeJsonChar, if_neg h1, if_neg h2, if_neg h3, if_neg h4, if_pos h5]
            rw [show parseStringStep (['\\', 'n'] ++ tail)
                = some (some (Char.ofNat 10), tail) from rfl]
            rw [← h5, Char.ofNat_toNat]
          · by_cases h6 : c.toNat = 12
            · rw [escapeJsonChar, if_neg h1, if_neg h2, if_neg h3, if_neg h4,
                if_neg h5, if_pos h6]
              rw [show parseStringStep (['\\', 'f'] ++ tail)
                  = some (some (Char.ofNat 12), tail) from rfl]
              rw [← h6, Char.ofNat_toNat]
            · by_cases h7 : c.toNat = 13
              · rw [escapeJsonChar, if_neg h1, if_neg h2, if_neg h3, if_neg h4,
                  if_neg h5, if_neg h6, if_pos h7]
                rw [show parseStringStep (['\\', 'r'] ++ tail)
                    = some (some (Char.ofNat 13), tail) from rfl]
                rw [← h7, Char.ofNat_toNat]
              · by_cases h8 : c.toNat < 32
                · rw [escapeJsonChar, if_neg h1, if_neg h2, if_neg h3, if_neg h4,
                    if_neg h5, if_neg h6, if_neg h7, if_pos h8]
                  show parseStringStep ('\\' :: 'u' :: '0' :: '0' ::
                    Nat.digitChar (c.toNat / 16) :: Nat.digitChar (c.toNat % 16) :: tail)
                    = some (some c, tail)
                  rw [show (some (some c, tail) : Option (Option Char × List Char))
                      = some (some (Char.ofNat c.toNat), tail) from by rw [Char.ofNat_toNat]]
                  revert h3 h4 h5 h6 h7 h8
                  generalize c.toNat = m
                  intro h3 h4 h5 h6 h7 h8
                  interval_cases m <;> rfl
                · rw [escapeJsonChar, if_neg h1, if_neg h2, if_neg h3, if_neg h4,
                    if_neg h5, if_neg h6, if_neg h7, if_neg h8]
                  show parseStringStep (c :: tail) = _
                  rw [parseStringStep.eq_def]
                  simp only
                  rw [if_neg h1, if_neg h2, if_neg (by omega : ¬c.toNat < 32)]

theorem parseStringBodyF_quote : ∀ (fuel : Nat) (s rest : List Char), s.length < fuel →
    parseStringBodyF fuel ((s.map escapeJsonChar).flatten ++ '"' :: rest) = some (s, rest) := by
  intro fuel
  induction fuel with
  | zero => intro s rest h; omega
  | succ f ih =>
    intro s rest h
    cases s with
    | nil =>
      show parseStringBodyF (f + 1) ('"' :: rest) = _
      rfl
    | cons c s2 =>
      have hshape : (((c :: s2).map escapeJsonChar).flatten ++ '"' :: rest)
          = escapeJsonChar c ++ ((s2.map escapeJsonChar).flatten ++ '"' :: rest) := by
        simp
      rw [hshape, parseStringBodyF, parseStringStep_escape]
      dsimp only
      rw [ih s2 rest (by simp only [List.length_cons] at h; omega)]
      rfl

theorem parseStringBody_quote (s rest : List Char) :
    parseStringBody ((s.map escapeJsonChar).flatten ++ '"' :: rest) = some (s, rest) := by
  unfold parseStringBody
  apply parseStringBodyF_quote
  have := escape_flatten_len s
  simp only [List.length_append, List.length_cons]
  omega

/-! ### Value round-trip lemmas -/

theorem skipWs_cons (c : Char) (l : List Char) (h : isJsonWs c = false) :
    skipWs (c :: l) = c :: l := by
  simp [skipWs, List.dropWhile_cons, h]

theorem isJsonWs_false_toNat (c : Char) (h32 : c.toNat ≠ 32) (h9 : c.toNat ≠ 9)
    (h10 : c.toNat ≠ 10) (h13 : c.toNat ≠ 13) : isJsonWs c = false := by
  by_contra hw
  simp only [Bool.not_eq_false] at hw
  rcases isJsonWs_char c hw with h | h | h | h
  · subst h; exact h32 rfl
  · subst h; exact h9 rfl
  · subst h; exact h10 rfl
  · subst h; exact h13 rfl

theorem digit_or_minus_head (c : Char) (h : c = '-' ∨ isDigitCh c = true) :
    c ≠ 'n' ∧ c ≠ 't' ∧ c ≠ 'f' ∧ c ≠ '"' ∧ c ≠ '[' ∧ c ≠ '{' ∧ isJsonWs c = false := by
  have htoNat : c.toNat = 45 ∨ (48 ≤ c.toNat ∧ c.toNat ≤ 57) := by
    rcases h with h | h
    · left
      subst h
      rfl
    · right
      exact isDigitCh_toNat c h
  refine ⟨char_ne _ _ ?_, char_ne _ _ ?_, char_ne _ _ ?_, char_ne _ _ ?_,
    char_ne _ _ ?_, char_ne _ _ ?_, ?_⟩
  · have e : ('n').toNat = 110 := rfl
    omega
  · have e : ('t').toNat = 116 := rfl
    omega
  · have e : ('f').toNat = 102 := rfl
    omega
  · have e : ('"').toNat = 34 := rfl
    omega
  · have e : ('[').toNat = 91 := rfl
    omega
  · have e : ('{').toNat = 123 := rfl
    omega
  · exact isJsonWs_false_toNat c (by omega) (by omega) (by omega) (by omega)

theorem jsonStr_head (j : Json) :
    ∃ c cs, jsonStr j = c :: cs ∧ isJsonWs c = false ∧ c ≠ ']' := by
  cases j with
  | null => exact ⟨'n', ['u', 'l', 'l'], by simp [jsonStr], by decide, by decide⟩
  | bool b =>
    cases b
    · exact ⟨'f', ['a', 'l', 's', 'e'], by simp [jsonStr], by decide, by decide⟩
    · exact ⟨'t', ['r', 'u', 'e'], by simp [jsonStr], by decide, by decide⟩
  | num i =>
    by_cases h : i < 0
    · refine ⟨'-', natToChars i.natAbs, ?_, by decide, by decide⟩
      simp [jsonStr, intToChars, if_pos h]
    · by_cases h0 : i.natAbs = 0
      · refine ⟨'0', [], ?_, by decide, by decide⟩
        simp [jsonStr, intToChars, if_neg h, h0, natToChars]
      · obtain ⟨c, cs, hc, hd, _⟩ := natToChars_head _ h0
        refine ⟨c, cs, ?_, isJsonWs_false_of_digit c hd, ?_⟩
        · simp [jsonStr, intToChars, if_neg h, hc]
        · have hb := isDigitCh_toNat c hd
          have e : (']').toNat = 93 := rfl
          exact char_ne _ _ (by omega)
  | str t =>
    exact ⟨'"', (t.map escapeJsonChar).flatten ++ ['"'],
      by simp [jsonStr, quoteJson], by decide, by decide⟩
  | arr items =>
    exact ⟨'[', jsonStrItems items ++ [']'], by simp [jsonStr], by decide, by decide⟩
  | obj ms =>
    exact ⟨'{', jsonStrMembers ms ++ ['}'], by simp [jsonStr], by decide, by decide⟩

theorem jfuelV_pos (j : Json) : 1 ≤ jfuelV j := by
  cases j with
  | arr items => cases items <;> simp [jfuelV]
  | obj ms => cases ms <;> simp [jfuelV]
  | null => simp [jfuelV]
  | bool b => simp [jfuelV]
  | num i => simp [jfuelV]
  | str t => simp [jfuelV]

theorem parseValue_num (f : Nat) (i : Int) (rest : List Char)
    (hr : headNotDigit rest = true) :
    parseValue (f + 1) (intToChars i ++ rest) = some (.num i, rest) := by
  obtain ⟨c, cs, hcs, hcm⟩ :
      ∃ c cs, intToChars i = c :: cs ∧ (c = '-' ∨ isDigitCh c = true) := by
    unfold intToChars
    by_cases h : i < 0
    · rw [if_pos h]
      exact ⟨'-', _, rfl, Or.inl rfl⟩
    · rw [if_neg h]
      by_cases h0 : i.natAbs = 0
      · rw [h0]
        exact ⟨'0', [], rfl, Or.inr (by decide)⟩
      · obtain ⟨c, cs, hc, hd, _⟩ := natToChars_head _ h0
        exact ⟨c, cs, hc, Or.inr hd⟩
  obtain ⟨hn1, hn2, hn3, hn4, hn5, hn6, hws⟩ := digit_or_minus_head c hcm
  rw [hcs]
  show parseValue (f + 1) (c :: (cs ++ rest)) = _
  rw [parseValue.eq_def]
  dsimp only
  rw [skipWs_cons _ _ hws]
  dsimp only
  rw [if_neg hn1, if_neg hn2, if_neg hn3, if_neg hn4, if_neg hn5, if_neg hn6,
    if_pos hcm]
  have hp := parseNumber_intToChars i rest hr
  rw [hcs] at hp
  simp only [List.cons_append] at hp
  rw [hp]
  rfl

theorem parseValue_str (f : Nat) (t rest : List Char) :
    parseValue (f + 1) (jsonStr (.str t) ++ rest) = some (.str t, rest) := by
  have hshape : jsonStr (.str t) ++ rest
      = '"' :: ((t.map escapeJsonChar).flatten ++ '"' :: rest) := by
    simp [jsonStr, quoteJson]
  rw [hshape, parseValue.eq_def]
  dsimp only
  rw [skipWs_cons _ _ (by decide)]
  dsimp only
  rw [if_neg (by decide), if_neg (by decide), if_neg (by decide), if_pos rfl]
  rw [parseStringBody_quote]
  rfl

theorem parse_round : ∀ fuel : Nat,
    (∀ j rest, jfuelV j ≤ fuel → headNotDigit rest = true →
      parseValue fuel (jsonStr j ++ rest) = some (j, rest)) ∧
    (∀ items rest, items ≠ [] → jfuelI items ≤ fuel →
      parseItems fuel (jsonStrItems items ++ ']' :: rest) = some (items, rest)) ∧
    (∀ ms rest, ms ≠ [] → jfuelM ms ≤ fuel →
      parseMembers fuel (jsonStrMembers ms ++ '}' :: rest) = some (ms, rest)) := by
  intro fuel
  induction fuel with
  | zero =>
    refine ⟨?_, ?_, ?_⟩
    · intro j rest hf _
      have := jfuelV_pos j
      omega
    · intro items rest hne hf
      cases items with
      | nil => exact absurd rfl hne
      | cons j its =>
        simp only [jfuelI] at hf
        omega
    · intro ms rest hne hf
      cases ms with
      | nil => exact absurd rfl hne
      | cons m ms2 =>
        obtain ⟨k, v⟩ := m
        simp only [jfuelM] at hf
        omega
  | succ f ih =>
    obtain ⟨ihV, ihI, ihM⟩ := ih
    refine ⟨?_, ?_, ?_⟩
    · intro j rest hf hr
      cases j with
      | null =>
        have hshape : jsonStr Json.null ++ rest = 'n' :: 'u' :: 'l' :: 'l' :: rest := by
          simp [jsonStr]
        rw [hshape]
        rfl
      | bool b =>
        cases b
        · have hshape : jsonStr (Json.bool false) ++ rest
              = 'f' :: 'a' :: 'l' :: 's' :: 'e' :: rest := by simp [jsonStr]
          rw [hshape]
          rfl
        · have hshape : jsonStr (Json.bool true) ++ rest
              = 't' :: 'r' :: 'u' :: 'e' :: rest := by simp [jsonStr]
          rw [hshape]
          rfl
      | num i =>
        have hshape : jsonStr (Json.num i) ++ rest = intToChars i ++ rest := by
          simp [jsonStr]
        rw [hshape]
        exact parseValue_num f i rest hr
      | str t => exact parseValue_str f t rest
      | arr items =>
        cases items with
        | nil =>
          have hshape : jsonStr (Json.arr []) ++ rest = '[' :: ']' :: rest := by
            simp [jsonStr, jsonStrItems]
          rw [hshape]
          rfl
        | cons j1 its =>
          have hfI : jfuelI (j1 :: its) ≤ f := by
            simp only [jfuelV] at hf
            omega
          have hshape : jsonStr (Json.arr (j1 :: its)) ++ rest
              = '[' :: (jsonStrItems (j1 :: its) ++ ']' :: rest) := by
            simp [jsonStr]
          obtain ⟨c, cs, hcs, hws, hnec⟩ := jsonStr_head j1
          obtain ⟨T, hT⟩ : ∃ T, jsonStrItems (j1 :: its) ++ ']' :: rest = c :: T := by
            cases its with
            | nil => exact ⟨cs ++ ']' :: rest, by simp [jsonStrItems, hcs]⟩
            | cons j2 its2 =>
              exact ⟨cs ++ (',' :: (jsonStrItems (j2 :: its2) ++ ']' :: rest)), by
                simp [jsonStrItems, hcs]⟩
          rw [hshape, parseValue.eq_def]
          dsimp only
          rw [skipWs_cons _ _ (by decide)]
          dsimp only
          rw [if_neg (by decide), if_neg (by decide), if_neg (by decide),
            if_neg (by decide), if_pos rfl]
          rw [hT, skipWs_cons _ _ hws]
          dsimp only
          rw [if_neg hnec, ← hT]
          rw [ihI (j1 :: its) rest (by simp) hfI]
          rfl
      | obj ms =>
        cases ms with
        | nil =>
          have hshape : jsonStr (Json.obj []) ++ rest = '{' :: '}' :: rest := by
            simp [jsonStr, jsonStrMembers]
          rw [hshape]
          rfl
        | cons m ms2 =>
          obtain ⟨k, v⟩ := m
          have hfM : jfuelM ((k, v) :: ms2) ≤ f := by
            simp only [jfuelV] at hf
            omega
          have hshape : jsonStr (Json.obj ((k, v) :: ms2)) ++ rest
              = '{' :: (jsonStrMembers ((k, v) :: ms2) ++ '}' :: rest) := by
            simp [jsonStr]
          obtain ⟨T, hT⟩ : ∃ T, jsonStrMembers ((k, v) :: ms2) ++ '}' :: rest = '"' :: T := by
            cases ms2 with
            | nil =>
              exact ⟨((k.map escapeJsonChar).flatten ++ ['"'])
                  ++ (':' :: (jsonStr v ++ '}' :: rest)), by
                simp [jsonStrMembers, quoteJson]⟩
            | cons m2 ms3 =>
              exact ⟨((k.map escapeJsonChar).flatten ++ ['"'])
                  ++ (':' :: (jsonStr v ++ (',' :: (jsonStrMembers (m2 :: ms3) ++ '}' :: rest)))), by
                simp [jsonStrMembers, quoteJson]⟩
          rw [hshape, parseValue.eq_def]
          dsimp only
          rw [skipWs_cons _ _ (by decide)]
          dsimp only
          rw [if_neg (by decide), if_neg (by decide), if_neg (by decide),
            if_neg (by decide), if_neg (by decide), if_pos rfl]
          rw [hT, skipWs_cons _ _ (by decide)]
          dsimp only
          rw [if_neg (by decide), ← hT]
          rw [ihM ((k, v) :: ms2) rest (by simp) hfM]
          rfl
    · intro items rest hne hf
      cases items with
      | nil => exact absurd rfl hne
      | cons j its =>
        cases its with
        | nil =>
          have hfV : jfuelV j ≤ f := by
            simp only [jfuelI] at hf
            omega
          have hshape : jsonStrItems [j] ++ ']' :: rest = jsonStr j ++ ']' :: rest := by
            simp [jsonStrItems]
          rw [hshape, parseItems.eq_def]
          dsimp only
          rw [ihV j (']' :: rest) hfV rfl]
          dsimp only
          rw [skipWs_cons _ _ (by decide)]
          dsimp only
          rw [if_neg (by decide), if_pos rfl]
        | cons j2 its2 =>
          have hfV : jfuelV j ≤ f := by
            simp only [jfuelI] at hf
            omega
          have hfI2 : jfuelI (j2 :: its2) ≤ f := by
            simp only [jfuelI] at hf ⊢
            omega
          have hshape : jsonStrItems (j :: j2 :: its2) ++ ']' :: rest
              = jsonStr j ++ (',' :: (jsonStrItems (j2 :: its2) ++ ']' :: rest)) := by
            simp [jsonStrItems]
          rw [hshape, parseItems.eq_def]
          dsimp only
          rw [ihV j (',' :: (jsonStrItems (j2 :: its2) ++ ']' :: rest)) hfV rfl]
          dsimp only
          rw [skipWs_cons _ _ (by decide)]
          dsimp only
          rw [if_pos rfl]
          rw [ihI (j2 :: its2) rest (by simp) hfI2]
          rfl
    · intro ms rest hne hf
      cases ms with
      | nil => exact absurd rfl hne
      | cons m ms2 =>
        obtain ⟨k, v⟩ := m
        cases ms2 with
        | nil =>
          have hfV : jfuelV v ≤ f := by
            simp only [jfuelM] at hf
            omega
          have hshape : jsonStrMembers [(k, v)] ++ '}' :: rest
              = '"' :: ((k.map escapeJsonChar).flatten
                  ++ '"' :: (':' :: (jsonStr v ++ '}' :: rest))) := by
            simp [jsonStrMembers, quoteJson]
          rw [hshape, parseMembers.eq_def]
          dsimp only
          rw [skipWs_cons _ _ (by decide)]
          dsimp only
          rw [if_pos rfl]
          rw [parseStringBody_quote]
          dsimp only
          rw [skipWs_cons _ _ (by decide)]
          dsimp only
          rw [if_pos rfl]
          rw [ihV v ('}' :: rest) hfV rfl]
          dsimp only
          rw [skipWs_cons _ _ (by decide)]
          dsimp only
          rw [if_neg (by decide), if_pos rfl]
        | cons m2 ms3 =>
          obtain ⟨k2, v2⟩ := m2
          have hfV : jfuelV v ≤ f := by
            simp only [jfuelM] at hf
            omega
          have hfM2 : jfuelM ((k2, v2) :: ms3) ≤ f := by
            simp only [jfuelM] at hf ⊢
            omega
          have hshape : jsonStrMembers ((k, v) :: (k2, v2) :: ms3) ++ '}' :: rest
              = '"' :: ((k.map escapeJsonChar).flatten ++ '"' :: (':' :: (jsonStr v
                  ++ (',' :: (jsonStrMembers ((k2, v2) :: ms3) ++ '}' :: rest))))) := by
            simp [jsonStrMembers, quoteJson]
          rw [hshape, parseMembers.eq_def]
          dsimp only
          rw [skipWs_cons _ _ (by decide)]
          dsimp only
          rw [if_pos rfl]
          rw [parseStringBody_quote]
          dsimp only
          rw [skipWs_cons _ _ (by decide)]
          dsimp only
          rw [if_pos rfl]
          rw [ihV v (',' :: (jsonStrMembers ((k2, v2) :: ms3) ++ '}' :: rest)) hfV rfl]
          dsimp only
          rw [skipWs_cons _ _ (by decide)]
          dsimp only
          rw [if_pos rfl]
          rw [ihM ((k2, v2) :: ms3) rest (by simp) hfM2]
          rfl

theorem intToChars_ne_nil (i : Int) : 1 ≤ (intToChars i).length := by
  unfold intToChars
  by_cases h : i < 0
  · rw [if_pos h]
    simp
  · rw [if_neg h]
    by_cases h0 : i.natAbs = 0
    · rw [h0]
      decide
    · obtain ⟨c, cs, hc, _, _⟩ := natToChars_head _ h0
      rw [hc]
      simp

mutual

theorem jfuelV_le (j : Json) : jfuelV j ≤ (jsonStr j).length := by
  cases j with
  | null => simp [jfuelV, jsonStr]
  | bool b => cases b <;> simp [jfuelV, jsonStr]
  | num i =>
    have := intToChars_ne_nil i
    simp only [jfuelV, jsonStr]
    omega
  | str t =>
    simp only [jfuelV, jsonStr, quoteJson, List.length_cons, List.length_append]
    omega
  | arr items =>
    cases items with
    | nil => simp [jfuelV, jsonStr, jsonStrItems]
    | cons j1 its =>
      have h1 := jfuelI_le (j1 :: its)
      simp only [jfuelV, jsonStr, List.length_cons, List.length_append] at *
      omega
  | obj ms =>
    cases ms with
    | nil => simp [jfuelV, jsonStr, jsonStrMembers]
    | cons m ms2 =>
      have h1 := jfuelM_le (m :: ms2)
      simp only [jfuelV, jsonStr, List.length_cons, List.length_append] at *
      omega

theorem jfuelI_le (l : List Json) : jfuelI l ≤ 1 + (jsonStrItems l).length := by
  cases l with
  | nil => simp [jfuelI]
  | cons j its =>
    cases its with
    | nil =>
      have h1 := jfuelV_le j
      simp only [jfuelI, jsonStrItems, jfuelI.eq_1]
      omega
    | cons j2 its2 =>
      have h1 := jfuelV_le j
      have h2 := jfuelI_le (j2 :: its2)
      simp only [jfuelI, jsonStrItems, List.length_append, List.length_cons] at *
      omega

theorem jfuelM_le (ms : List (List Char × Json)) :
    jfuelM ms ≤ 1 + (jsonStrMembers ms).length := by
  cases ms with
  | nil => simp [jfuelM]
  | cons m ms2 =>
    obtain ⟨k, v⟩ := m
    cases ms2 with
    | nil =>
      have h1 := jfuelV_le v
      simp only [jfuelM, jsonStrMembers, jfuelM.eq_1, List.length_append, List.length_cons]
      omega
    | cons m2 ms3 =>
      have h1 := jfuelV_le v
      have h2 := jfuelM_le (m2 :: ms3)
      simp only [jfuelM, jsonStrMembers, List.length_append, List.length_cons] at *
      omega

end

/-- `JSON.parse` inverts `JSON.stringify` on every JSON value of the
embedding's domain. -/
theorem jsonParse_jsonStr (j : Json) : jsonParse (jsonStr j) = some j := by
  have h := (parse_round ((jsonStr j).length + 1)).1 j []
    (by have := jfuelV_le j; omega) rfl
  rw [List.append_nil] at h
  unfold jsonParse
  rw [h]
  rfl

theorem jsonStr_injective (a b : Json) (h : jsonStr a = jsonStr b) : a = b := by
  have ha := jsonParse_jsonStr a
  have hb := jsonParse_jsonStr b
  rw [h] at ha
  have := ha.symm.trans hb
  injection this

/-! ### Data-model JSON round trips -/

theorem sexOfJson_toJson (x : Sex) : sexOfJson (sexToJson x) = some x := by
  cases x <;> rfl

theorem presetOfJson_toJson (x : PointsPreset) :
    presetOfJson (presetToJson x) = some x := by
  cases x <;> rfl

theorem optIntOfJson_toJson (x : Option Int) :
    optIntOfJson (optIntToJson x) = some x := by
  cases x <;> rfl

theorem intOfJson_num (i : Int) : intOfJson (Json.num i) = some i := rfl

theorem listOfJson_map (f : Json → Option α) (g : α → Json)
    (hfg : ∀ x, f (g x) = some x) (l : List α) :
    listOfJson f (l.map g) = some l := by
  induction l with
  | nil => rfl
  | cons x xs ih =>
    show listOfJson f (g x :: xs.map g) = _
    rw [listOfJson, hfg x, ih]

theorem athleteOfJson_toJson (a : Athlete) : athleteOfJson (athleteToJson a) = some a := by
  rw [athleteToJson, athleteOfJson.eq_def]
  dsimp only
  rw [if_pos ⟨rfl, rfl, rfl, rfl, rfl, rfl, rfl, rfl, rfl⟩]
  rw [sexOfJson_toJson, optIntOfJson_toJson, optIntOfJson_toJson, optIntOfJson_toJson,
    optIntOfJson_toJson, optIntOfJson_toJson]

theorem stateOfJson_toJson (s : State) : stateOfJson (stateToJson s) = some s := by
  rw [stateToJson, stateOfJson.eq_def]
  dsimp only
  rw [if_pos ⟨rfl, rfl, rfl, rfl⟩]
  rw [presetOfJson_toJson, listOfJson_map intOfJson Json.num intOfJson_num]
  rw [listOfJson_map athleteOfJson athleteToJson athleteOfJson_toJson]

theorem payloadOfJson_toJson (p : Payload) : payloadOfJson (payloadToJson p) = some p := by
  rw [payloadToJson, payloadOfJson.eq_def]
  dsimp only
  rw [if_pos ⟨rfl, rfl⟩]
  rw [stateOfJson_toJson]
  rfl

theorem stateToJson_injective (a b : State) (h : stateToJson a = stateToJson b) :
    a = b := by
  have ha := stateOfJson_toJson a
  rw [h, stateOfJson_toJson] at ha
  injection ha with h2
  exact h2.symm

/-! ### C1: share-codec round trip -/

theorem btoa_not_jsWs (bs : List Nat) (hb : ∀ b ∈ bs, b < 256) :
    ∀ c ∈ btoaBytes bs, isJsWhitespace c = false := by
  intro c hc
  rcases btoa_chars bs hb c hc with h | ⟨v, hv, h⟩
  · subst h
    decide
  · subst h
    have hws : ∀ v < 64, isJsWhitespace (b64Char v) = false := by decide
    exact hws v hv

theorem jsTrimList_id (l : List Char) (h : ∀ c ∈ l, isJsWhitespace c = false) :
    jsTrimList l = l := by
  have h1 : l.dropWhile isJsWhitespace = l := by
    cases l with
    | nil => rfl
    | cons c t =>
      rw [List.dropWhile_cons, h c (by simp)]
      simp
  unfold jsTrimList
  rw [h1]
  have h2 : l.reverse.dropWhile isJsWhitespace = l.reverse := by
    cases hr : l.reverse with
    | nil => rfl
    | cons c t =>
      rw [List.dropWhile_cons, h c (by
        have : c ∈ l.reverse := by rw [hr]; simp
        simpa using this)]
      simp
  rw [h2, List.reverse_reverse]

/-- C1: for every payload `{eid, state}` in the representable domain,
decoding the encoded share token returns the payload unchanged:
`readEventKey (makeEventKey p)` yields exactly the JSON object serialized
from `p` (first conjunct), which reads back as `p` itself (second
conjunct). -/
theorem C1_share_codec_round_trip (p : Payload) :
    readEventKey (makeEventKey p) = some (payloadToJson p) ∧
    (readEventKey (makeEventKey p)).bind payloadOfJson = some p := by
  have hmain : readEventKey (makeEventKey p) = some (payloadToJson p) := by
    unfold makeEventKey readEventKey
    rw [show (String.mk (btoaBytes (utf8Encode (jsonStr (payloadToJson p))))).data
        = btoaBytes (utf8Encode (jsonStr (payloadToJson p))) from rfl]
    rw [jsTrimList_id _ (btoa_not_jsWs _ (utf8Encode_lt _))]
    rw [atob_btoa _ (utf8Encode_lt _)]
    dsimp only
    rw [utf8Decode_utf8Encode]
    dsimp only
    rw [jsonParse_jsonStr]
  refine ⟨hmain, ?_⟩
  rw [hmain]
  dsimp only [Option.bind]
  rw [payloadOfJson_toJson]

/-! ### C2 and C3: reconciliation -/

/-- C2: when the locally stored snapshot under `id` is structurally
identical to the incoming one, `addOrForkEvent` returns the existing local
copy under the same identifier and leaves both the event store and the
index unchanged, so re-importing the same `{id, snapshot}` yields one
stored event, not two. -/
theorem C2_reimport_idempotent (store : List (String × State))
    (index : List EventMeta) (id : String) (s : State) (newEid : String) (now : Nat)
    (h : loadEvent store id = some s) :
    addOrForkEvent store index (some id) s newEid now = ((id, s), store, index) := by
  unfold addOrForkEvent
  dsimp only [Option.getD]
  rw [h]
  dsimp only
  rw [if_pos rfl]

theorem C2_reimport_idempotent_witness :
    loadEvent [("e1", demoState)] "e1" = some demoState ∧
    addOrForkEvent [("e1", demoState)] [] (some "e1") demoState "fresh-id" 5
      = (("e1", demoState), [("e1", demoState)], []) := by
  refine ⟨by decide, ?_⟩
  exact C2_reimport_idempotent [("e1", demoState)] [] "e1" demoState "fresh-id" 5
    (by decide)

/-- C3: importing a structurally different snapshot under an existing
identifier forks: the result carries the fresh identifier (distinct from
`id`), the incoming snapshot is stored under it, a fresh index entry is
prepended, and the original snapshot is still stored unchanged under `id`,
so two distinct events are stored. -/
theorem C3_fork_on_conflict (store : List (String × State)) (index : List EventMeta)
    (id : String) (s0 s2 : State) (fresh : String) (now : Nat)
    (h0 : loadEvent store id = some s0)
    (hne : s2 ≠ s0)
    (hfresh : loadEvent store fresh = none) :
    addOrForkEvent store index (some id) s2 fresh now
      = ((fresh, s2), saveEvent store fresh s2,
         (⟨fresh, s2.title, now, now⟩ : EventMeta) :: index) ∧
    fresh ≠ id ∧
    loadEvent (saveEvent store fresh s2) id = some s0 ∧
    loadEvent (saveEvent store fresh s2) fresh = some s2 := by
  have hfi : fresh ≠ id := by
    intro he
    rw [he, h0] at hfresh
    cases hfresh
  have hser : jsonStr (stateToJson s0) ≠ jsonStr (stateToJson s2) := by
    intro he
    exact hne (stateToJson_injective s2 s0 (jsonStr_injective _ _ he.symm))
  refine ⟨?_, hfi, ?_, ?_⟩
  · unfold addOrForkEvent
    dsimp only [Option.getD]
    rw [h0]
    dsimp only
    rw [if_neg hser]
  · show List.lookup id ((fresh, s2) :: store) = some s0
    have hb : (id == fresh) = false := beq_eq_false_iff_ne.mpr (Ne.symm hfi)
    simp only [List.lookup, hb]
    exact h0
  · show List.lookup fresh ((fresh, s2) :: store) = some s2
    have hb : (fresh == fresh) = true := beq_self_eq_true fresh
    simp only [List.lookup, hb]

theorem C3_fork_on_conflict_witness :
    loadEvent [("e1", demoState)] "e1" = some demoState ∧
    demoState2 ≠ demoState ∧
    loadEvent [("e1", demoState)] "e2" = none ∧
    (addOrForkEvent [("e1", demoState)] [] (some "e1") demoState2 "e2" 7
      = (("e2", demoState2), [("e2", demoState2), ("e1", demoState)],
         [⟨"e2", "Spring Meet", 7, 7⟩]) ∧
     "e2" ≠ "e1" ∧
     loadEvent [("e2", demoState2), ("e1", demoState)] "e1" = some demoState ∧
     loadEvent [("e2", demoState2), ("e1", demoState)] "e2" = some demoState2) := by
  refine ⟨by decide, by decide, by decide, ?_⟩
  have h := C3_fork_on_conflict [("e1", demoState)] [] "e1" demoState demoState2 "e2" 7
    (by decide) (by decide) (by decide)
  exact h

/-! ### C10: points table fallback -/

/-- C10: with the `Custom` preset, an empty custom points list silently
falls back to the Simple table `[10, 7, 5, 3, 2, 1]` (so the table is never
empty and athletes still receive points), while any non-empty custom list is
used as-is. -/
theorem C10_custom_points_fallback (st : State) (hC : st.pointsPreset = .Custom) :
    (st.pointsCustom = [] → pointsTable st = SIMPLE_POINTS) ∧
    (st.pointsCustom ≠ [] →
      pointsTable st = intsToRats st.pointsCustom) ∧
    pointsTable st ≠ [] := by
  have hp : pointsTable st =
      (if st.pointsCustom.length ≠ 0 then intsToRats st.pointsCustom
       else SIMPLE_POINTS) := by
    unfold pointsTable
    rw [if_neg (by rw [hC]; exact fun h => PointsPreset.noConfusion h),
        if_neg (by rw [hC]; exact fun h => PointsPreset.noConfusion h)]
  refine ⟨?_, ?_, ?_⟩
  · intro he
    rw [hp, if_neg (by simp [he])]
  · intro he
    rw [hp, if_pos (by simpa using he)]
  · rw [hp]
    by_cases he : st.pointsCustom = []
    · rw [if_neg (by simp [he])]
      simp [SIMPLE_POINTS]
    · rw [if_pos (by simpa using he)]
      cases hcu : st.pointsCustom with
      | nil => exact absurd hcu he
      | cons a l => unfold intsToRats; simp

theorem C10_custom_points_fallback_witness :
    demoCustom.pointsPreset = PointsPreset.Custom ∧
    ((demoCustom.pointsCustom = [] → pointsTable demoCustom = SIMPLE_POINTS) ∧
     (demoCustom.pointsCustom ≠ [] →
       pointsTable demoCustom = intsToRats demoCustom.pointsCustom) ∧
     pointsTable demoCustom ≠ []) :=
  ⟨rfl, C10_custom_points_fallback demoCustom rfl⟩

/-! ### C8: empty time string versus malformed time string -/

/-- C8 fails as claimed: the empty string does not get a distinct valid
"no time entered" value; both `""` and the malformed `"1:xx"` give `null`. -/
theorem C8_counterexample :
    parseTimeToSeconds "" = none ∧ parseTimeToSeconds "1:xx" = none := by
  constructor
  · rfl
  · rfl

/-- C8 (amended): the empty string is treated as "no time entered", but
that result is the same `null` returned for malformed strings such as
`"1:xx"` rather than a distinct value. -/
theorem C8_empty_time_not_distinct :
    parseTimeToSeconds "" = parseTimeToSeconds "1:xx" ∧
    parseTimeToSeconds "" = none := by
  constructor
  · rfl
  · rfl


/-! ### C6: DOTS scoring -/

/-- C6 fails as claimed: a negative total is not "unscored" — the guard
`!totalKg` only catches `null` and `0`, so `dotsPoints` happily scores a
total of `-100` even though `total > 0` does not hold. -/
theorem C6_counterexample :
    dotsPoints (some (-100)) (some 80) Sex.M ≠ none ∧ ¬ (0 < (-100 : ℚ)) := by
  with_unfolding_all decide

/-- C6 (amended): `dotsPoints` is unscored when the total is `null` or `0`,
the bodyweight is `null` or `≤ 0`, the sex is neither M nor F, or the
polynomial denominator vanishes; for a nonzero (possibly negative!) total,
positive bodyweight and sex M/F with nonvanishing denominator it returns
`(600 / P(bodyweight)) * total` for the documented coefficients.  (The
`isFinite` guard is vacuous in exact rational arithmetic.) -/
theorem C6_dots_scoring (t b : ℚ) (sex : Sex) (ht : t ≠ 0) (hb : 0 < b) :
    (∀ bw, dotsPoints none bw sex = none) ∧
    (∀ bw, dotsPoints (some 0) bw sex = none) ∧
    (∀ tot, dotsPoints tot none sex = none) ∧
    (∀ tot b2, b2 ≤ 0 → dotsPoints tot (some b2) sex = none) ∧
    dotsPoints (some t) (some b) Sex.X = none ∧
    (dotsDenom DOTS_COEFF_M b ≠ 0 →
      dotsPoints (some t) (some b) Sex.M
        = some (600 / dotsDenom DOTS_COEFF_M b * t)) ∧
    (dotsDenom DOTS_COEFF_F b ≠ 0 →
      dotsPoints (some t) (some b) Sex.F
        = some (600 / dotsDenom DOTS_COEFF_F b * t)) ∧
    (dotsDenom DOTS_COEFF_M b = 0 → dotsPoints (some t) (some b) Sex.M = none) ∧
    (dotsDenom DOTS_COEFF_F b = 0 → dotsPoints (some t) (some b) Sex.F = none) := by
  have hcond :
      (optFalsy (some t) || optFalsy (some b) || jsLeZero (some b)) = false := by
    simp [optFalsy, jsLeZero, ht, not_le.mpr hb, ne_of_gt hb]
  refine ⟨?_, ?_, ?_, ?_, ?_, ?_, ?_, ?_, ?_⟩
  · intro bw
    simp [dotsPoints, optFalsy]
  · intro bw
    simp [dotsPoints, optFalsy]
  · intro tot
    simp [dotsPoints, optFalsy]
  · intro tot b2 hb2
    simp [dotsPoints, jsLeZero, hb2]
  · unfold dotsPoints
    rw [if_neg (by rw [hcond]; exact Bool.false_ne_true)]
  · intro hd
    unfold dotsPoints
    rw [if_neg (by rw [hcond]; exact Bool.false_ne_true)]
    dsimp only [Option.getD]
    rw [if_neg hd]
  · intro hd
    unfold dotsPoints
    rw [if_neg (by rw [hcond]; exact Bool.false_ne_true)]
    dsimp only [Option.getD]
    rw [if_neg hd]
  · intro hd
    unfold dotsPoints
    rw [if_neg (by rw [hcond]; exact Bool.false_ne_true)]
    dsimp only [Option.getD]
    rw [if_pos hd]
  · intro hd
    unfold dotsPoints
    rw [if_neg (by rw [hcond]; exact Bool.false_ne_true)]
    dsimp only [Option.getD]
    rw [if_pos hd]

theorem C6_dots_scoring_witness :
    ((500 : ℚ) ≠ 0) ∧ ((0 : ℚ) < 80) ∧
    ((∀ bw, dotsPoints none bw Sex.M = none) ∧
     (∀ bw, dotsPoints (some 0) bw Sex.M = none) ∧
     (∀ tot, dotsPoints tot none Sex.M = none) ∧
     (∀ tot b2, b2 ≤ 0 → dotsPoints tot (some b2) Sex.M = none) ∧
     dotsPoints (some 500) (some 80) Sex.X = none ∧
     (dotsDenom DOTS_COEFF_M 80 ≠ 0 →
       dotsPoints (some 500) (some 80) Sex.M
         = some (600 / dotsDenom DOTS_COEFF_M 80 * 500)) ∧
     (dotsDenom DOTS_COEFF_F 80 ≠ 0 →
       dotsPoints (some 500) (some 80) Sex.F
         = some (600 / dotsDenom DOTS_COEFF_F 80 * 500)) ∧
     (dotsDenom DOTS_COEFF_M 80 = 0 →
       dotsPoints (some 500) (some 80) Sex.M = none) ∧
     (dotsDenom DOTS_COEFF_F 80 = 0 →
       dotsPoints (some 500) (some 80) Sex.F = none)) :=
  ⟨by decide, by decide, C6_dots_scoring 500 80 Sex.M (by decide) (by decide)⟩


/-! ### JS `Number` and time-parsing lemmas -/

theorem takeWhile_all {α} (p : α → Bool) (l : List α) (h : ∀ a ∈ l, p a = true) :
    l.takeWhile p = l := by
  induction l with
  | nil => rfl
  | cons a t ih =>
    rw [List.takeWhile_cons, h a (by simp), if_pos rfl]
    rw [ih (fun b hb => h b (by simp [hb]))]

theorem dropWhile_all {α} (p : α → Bool) (l : List α) (h : ∀ a ∈ l, p a = true) :
    l.dropWhile p = [] := by
  induction l with
  | nil => rfl
  | cons a t ih =>
    rw [List.dropWhile_cons, h a (by simp), if_pos rfl]
    exact ih (fun b hb => h b (by simp [hb]))

theorem digit_not_jsWs (c : Char) (h : isDigitCh c = true) :
    isJsWhitespace c = false := by
  have hb : 48 ≤ c.toNat ∧ c.toNat ≤ 57 := by
    simpa [isDigitCh, Bool.and_eq_true, decide_eq_true_eq] using h
  have key : ∀ m < 58, 48 ≤ m → (jsWhitespaceCodes.contains m) = false := by decide
  show jsWhitespaceCodes.contains c.toNat = false
  exact key c.toNat (by omega) (by omega)

theorem parseUnsignedNum_digits (l : List Char) (hne : l ≠ [])
    (hd : ∀ c ∈ l, isDigitCh c = true) :
    parseUnsignedNum l = some (.fin ((digitsToNat l : ℚ))) := by
  have hInf : l ≠ "Infinity".data := by
    cases l with
    | nil => exact absurd rfl hne
    | cons c t =>
      intro he
      have hc : c = 'I' := by
        have : c :: t = 'I' :: "nfinity".data := he
        injection this
      have hdc := hd c (by simp)
      rw [hc] at hdc
      exact absurd hdc (by decide)
  unfold parseUnsignedNum
  rw [if_neg hInf]
  unfold parseUnsignedDec parseDecMantissa
  rw [takeWhile_all _ _ hd, dropWhile_all _ _ hd]
  dsimp only
  rw [if_neg hne]
  dsimp only
  show some (JsNum.fin ((digitsToNat l : ℚ) * (10 : ℚ) ^ (0 : Int)))
    = some (JsNum.fin ((digitsToNat l : ℚ)))
  norm_num

theorem jsToNumber_digits (l : List Char) (hne : l ≠ [])
    (hd : ∀ c ∈ l, isDigitCh c = true) :
    jsToNumber l = .fin ((digitsToNat l : ℚ)) := by
  have htrim : jsTrimList l = l :=
    jsTrimList_id l (fun c hc => digit_not_jsWs c (hd c hc))
  cases l with
  | nil => exact absurd rfl hne
  | cons d ds =>
    have hdd := hd d (by simp)
    have hdTo : 48 ≤ d.toNat ∧ d.toNat ≤ 57 := by
      simpa [isDigitCh, Bool.and_eq_true, decide_eq_true_eq] using hdd
    have hplus : d ≠ '+' := char_ne _ _ (by
      have e : ('+').toNat = 43 := rfl
      omega)
    have hminus : d ≠ '-' := char_ne _ _ (by
      have e : ('-').toNat = 45 := rfl
      omega)
    unfold jsToNumber
    rw [htrim]
    dsimp only
    rw [if_neg hplus, if_neg hminus]
    by_cases h0 : d = '0'
    · rw [if_pos h0]
      cases ds with
      | nil =>
        dsimp only
        rw [parseUnsignedNum_digits ['0'] (by simp) (by decide)]
        dsimp only
        rw [h0]
      | cons c2 r2 =>
        have hc2 := hd c2 (by simp)
        have hc2To : 48 ≤ c2.toNat ∧ c2.toNat ≤ 57 := by
          simpa [isDigitCh, Bool.and_eq_true, decide_eq_true_eq] using hc2
        have hx : ¬(c2 = 'x' ∨ c2 = 'X') := by
          rintro (h | h)
          · exact absurd h (char_ne _ _ (by
              have e : ('x').toNat = 120 := rfl
              omega))
          · exact absurd h (char_ne _ _ (by
              have e : ('X').toNat = 88 := rfl
              omega))
        have ho : ¬(c2 = 'o' ∨ c2 = 'O') := by
          rintro (h | h)
          · exact absurd h (char_ne _ _ (by
              have e : ('o').toNat = 111 := rfl
              omega))
          · exact absurd h (char_ne _ _ (by
              have e : ('O').toNat = 79 := rfl
              omega))
        have hb2 : ¬(c2 = 'b' ∨ c2 = 'B') := by
          rintro (h | h)
          · exact absurd h (char_ne _ _ (by
              have e : ('b').toNat = 98 := rfl
              omega))
          · exact absurd h (char_ne _ _ (by
              have e : ('B').toNat = 66 := rfl
              omega))
        have hrad : jsRadixPart c2 r2 = none := by
          unfold jsRadixPart
          rw [if_neg hx, if_neg ho, if_neg hb2]
        dsimp only
        rw [hrad]
        dsimp only
        rw [show ('0' : Char) :: c2 :: r2 = d :: c2 :: r2 by rw [h0]]
        rw [parseUnsignedNum_digits _ (by simp) hd]
    · rw [if_neg h0]
      rw [parseUnsignedNum_digits _ (by simp) hd]

theorem jsToNumber_digits_not_nan (l : List Char) (hne : l ≠ [])
    (hd : ∀ c ∈ l, isDigitCh c = true) :
    (jsToNumber l).isNaN = false := by
  rw [jsToNumber_digits l hne hd]
  rfl

theorem splitOn_no_sep (sep : Char) (l : List Char) (h : sep ∉ l) :
    splitOn sep l = [l] := by
  induction l with
  | nil => rfl
  | cons c t ih =>
    rw [splitOn]
    rw [if_neg (by intro he; exact h (by simp [he]))]
    rw [ih (fun hm => h (by simp [hm]))]

theorem splitOn_append (sep : Char) (xs ys : List Char) (h : sep ∉ xs) :
    splitOn sep (xs ++ sep :: ys) = xs :: splitOn sep ys := by
  induction xs with
  | nil =>
    show splitOn sep (sep :: ys) = [] :: splitOn sep ys
    rw [splitOn]
    rw [if_pos rfl]
  | cons c t ih =>
    show splitOn sep (c :: (t ++ sep :: ys)) = (c :: t) :: splitOn sep ys
    rw [splitOn]
    rw [if_neg (by intro he; exact h (by simp [he]))]
    rw [ih (fun hm => h (by simp [hm]))]


theorem natToChars_ne_nil (n : Nat) : natToChars n ≠ [] := by
  by_cases h : n = 0
  · subst h
    decide
  · obtain ⟨c, cs, hc, _, _⟩ := natToChars_head n h
    rw [hc]
    simp

theorem digitsToNat_natToChars (n : Nat) : digitsToNat (natToChars n) = n :=
  foldl_natToChars n

theorem parseTime_digits1 (p1 : List Char) (h1 : p1 ≠ [])
    (hd1 : ∀ c ∈ p1, isDigitCh c = true) :
    parseTimeToSeconds (String.mk p1) = some (.fin ((digitsToNat p1 : ℚ))) := by
  have hcolon : ':' ∉ p1 := fun hm => absurd (hd1 ':' hm) (by decide)
  have hmk : String.mk p1 ≠ "" := by
    intro he
    exact h1 (congrArg String.data he)
  have htr : jsTrimList p1 = p1 :=
    jsTrimList_id p1 (fun c hc => digit_not_jsWs c (hd1 c hc))
  have hf : (decide (p1 = []) || (jsToNumber p1).isNaN) = false := by
    rw [decide_eq_false h1, jsToNumber_digits_not_nan p1 h1 hd1]
    rfl
  unfold parseTimeToSeconds
  rw [if_neg hmk]
  rw [show (String.mk p1).data = p1 from rfl, splitOn_no_sep ':' p1 hcolon]
  dsimp only [List.map]
  rw [htr]
  rw [if_neg (by
    simp [List.any, h1, jsToNumber_digits_not_nan p1 h1 hd1])]
  rw [jsToNumber_digits p1 h1 hd1]

theorem parseTime_digits2 (p1 p2 : List Char) (h1 : p1 ≠ []) (h2 : p2 ≠ [])
    (hd1 : ∀ c ∈ p1, isDigitCh c = true) (hd2 : ∀ c ∈ p2, isDigitCh c = true) :
    parseTimeToSeconds (String.mk (p1 ++ ':' :: p2))
      = some (.fin ((digitsToNat p1 : ℚ) * 60 + (digitsToNat p2 : ℚ))) := by
  have hc1 : ':' ∉ p1 := fun hm => absurd (hd1 ':' hm) (by decide)
  have hc2 : ':' ∉ p2 := fun hm => absurd (hd2 ':' hm) (by decide)
  have hmk : String.mk (p1 ++ ':' :: p2) ≠ "" := by
    intro he
    have hdata : p1 ++ ':' :: p2 = [] := congrArg String.data he
    simp at hdata
  have htr1 : jsTrimList p1 = p1 :=
    jsTrimList_id p1 (fun c hc => digit_not_jsWs c (hd1 c hc))
  have htr2 : jsTrimList p2 = p2 :=
    jsTrimList_id p2 (fun c hc => digit_not_jsWs c (hd2 c hc))
  have hf1 : (decide (p1 = []) || (jsToNumber p1).isNaN) = false := by
    rw [decide_eq_false h1, jsToNumber_digits_not_nan p1 h1 hd1]
    rfl
  have hf2 : (decide (p2 = []) || (jsToNumber p2).isNaN) = false := by
    rw [decide_eq_false h2, jsToNumber_digits_not_nan p2 h2 hd2]
    rfl
  unfold parseTimeToSeconds
  rw [if_neg hmk]
  rw [show (String.mk (p1 ++ ':' :: p2)).data = p1 ++ ':' :: p2 from rfl]
  rw [splitOn_append ':' p1 p2 hc1, splitOn_no_sep ':' p2 hc2]
  dsimp only [List.map]
  rw [htr1, htr2]
  rw [if_neg (by
    simp [List.any, h1, h2, jsToNumber_digits_not_nan p1 h1 hd1,
      jsToNumber_digits_not_nan p2 h2 hd2])]
  rw [jsToNumber_digits p1 h1 hd1, jsToNumber_digits p2 h2 hd2]
  rfl

theorem parseTime_digits3 (p1 p2 p3 : List Char)
    (h1 : p1 ≠ []) (h2 : p2 ≠ []) (h3 : p3 ≠ [])
    (hd1 : ∀ c ∈ p1, isDigitCh c = true) (hd2 : ∀ c ∈ p2, isDigitCh c = true)
    (hd3 : ∀ c ∈ p3, isDigitCh c = true) :
    parseTimeToSeconds (String.mk (p1 ++ ':' :: (p2 ++ ':' :: p3)))
      = some (.fin (((digitsToNat p1 : ℚ) * 3600 + (digitsToNat p2 : ℚ) * 60)
          + (digitsToNat p3 : ℚ))) := by
  have hc1 : ':' ∉ p1 := fun hm => absurd (hd1 ':' hm) (by decide)
  have hc2 : ':' ∉ p2 := fun hm => absurd (hd2 ':' hm) (by decide)
  have hc3 : ':' ∉ p3 := fun hm => absurd (hd3 ':' hm) (by decide)
  have hmk : String.mk (p1 ++ ':' :: (p2 ++ ':' :: p3)) ≠ "" := by
    intro he
    have hdata : p1 ++ ':' :: (p2 ++ ':' :: p3) = [] := congrArg String.data he
    simp at hdata
  have htr1 : jsTrimList p1 = p1 :=
    jsTrimList_id p1 (fun c hc => digit_not_jsWs c (hd1 c hc))
  have htr2 : jsTrimList p2 = p2 :=
    jsTrimList_id p2 (fun c hc => digit_not_jsWs c (hd2 c hc))
  have htr3 : jsTrimList p3 = p3 :=
    jsTrimList_id p3 (fun c hc => digit_not_jsWs c (hd3 c hc))
  have hf1 : (decide (p1 = []) || (jsToNumber p1).isNaN) = false := by
    rw [decide_eq_false h1, jsToNumber_digits_not_nan p1 h1 hd1]
    rfl
  have hf2 : (decide (p2 = []) || (jsToNumber p2).isNaN) = false := by
    rw [decide_eq_false h2, jsToNumber_digits_not_nan p2 h2 hd2]
    rfl
  have hf3 : (decide (p3 = []) || (jsToNumber p3).isNaN) = false := by
    rw [decide_eq_false h3, jsToNumber_digits_not_nan p3 h3 hd3]
    rfl
  unfold parseTimeToSeconds
  rw [if_neg hmk]
  rw [show (String.mk (p1 ++ ':' :: (p2 ++ ':' :: p3))).data
      = p1 ++ ':' :: (p2 ++ ':' :: p3) from rfl]
  rw [splitOn_append ':' p1 _ hc1, splitOn_append ':' p2 p3 hc2,
      splitOn_no_sep ':' p3 hc3]
  dsimp only [List.map]
  rw [htr1, htr2, htr3]
  rw [if_neg (by
    simp [List.any, h1, h2, h3, jsToNumber_digits_not_nan p1 h1 hd1,
      jsToNumber_digits_not_nan p2 h2 hd2, jsToNumber_digits_not_nan p3 h3 hd3])]
  rw [jsToNumber_digits p1 h1 hd1, jsToNumber_digits p2 h2 hd2,
      jsToNumber_digits p3 h3 hd3]
  rfl


/-! ### C7: clock-time parsing -/

/-- C7: `parseTimeToSeconds` splits on `:`; one numeric part is raw
seconds, two parts are minutes*60+seconds, three parts are
hours*3600+minutes*60+seconds; a part that is empty or not numeric, or more
than three parts, invalidates the whole string; and the documented examples
hold: `"1:02:03" → 3723`, `"2:03" → 123`, `"45" → 45`. -/
theorem C7_parse_clock_time (n1 n2 n3 : Nat) :
    parseTimeToSeconds (String.mk (natToChars n1)) = some (.fin ((n1 : ℚ))) ∧
    parseTimeToSeconds (String.mk (natToChars n1 ++ ':' :: natToChars n2))
      = some (.fin ((n1 : ℚ) * 60 + (n2 : ℚ))) ∧
    parseTimeToSeconds
        (String.mk (natToChars n1 ++ ':' :: (natToChars n2 ++ ':' :: natToChars n3)))
      = some (.fin (((n1 : ℚ) * 3600 + (n2 : ℚ) * 60) + (n3 : ℚ))) ∧
    (∀ t : String, 3 < (splitOn ':' t.data).length → parseTimeToSeconds t = none) ∧
    (∀ t : String,
      (((splitOn ':' t.data).map jsTrimList).any
        (fun p => decide (p = []) || (jsToNumber p).isNaN)) = true →
      parseTimeToSeconds t = none) ∧
    parseTimeToSeconds "1:02:03" = some (.fin 3723) ∧
    parseTimeToSeconds "2:03" = some (.fin 123) ∧
    parseTimeToSeconds "45" = some (.fin 45) := by
  refine ⟨?_, ?_, ?_, ?_, ?_, ?_, ?_, ?_⟩
  · rw [parseTime_digits1 _ (natToChars_ne_nil n1) (natToChars_digits n1)]
    rw [digitsToNat_natToChars]
  · rw [parseTime_digits2 _ _ (natToChars_ne_nil n1) (natToChars_ne_nil n2)
      (natToChars_digits n1) (natToChars_digits n2)]
    rw [digitsToNat_natToChars, digitsToNat_natToChars]
  · rw [parseTime_digits3 _ _ _ (natToChars_ne_nil n1) (natToChars_ne_nil n2)
      (natToChars_ne_nil n3) (natToChars_digits n1) (natToChars_digits n2)
      (natToChars_digits n3)]
    rw [digitsToNat_natToChars, digitsToNat_natToChars, digitsToNat_natToChars]
  · intro t ht
    unfold parseTimeToSeconds
    by_cases he : t = ""
    · rw [if_pos he]
    · rw [if_neg he]
      cases hL : splitOn ':' t.data with
      | nil => rw [hL] at ht; simp at ht
      | cons a L1 =>
        cases L1 with
        | nil => rw [hL] at ht; simp at ht
        | cons b L2 =>
          cases L2 with
          | nil => rw [hL] at ht; simp at ht
          | cons c L3 =>
            cases L3 with
            | nil => rw [hL] at ht; simp at ht
            | cons d L4 =>
              dsimp only [List.map]
              by_cases hany : ((jsTrimList a :: jsTrimList b :: jsTrimList c ::
                  jsTrimList d :: L4.map jsTrimList).any
                    (fun p => decide (p = []) || (jsToNumber p).isNaN)) = true
              · rw [if_pos hany]
              · rw [if_neg hany]
  · intro t hbad
    unfold parseTimeToSeconds
    by_cases he : t = ""
    · rw [if_pos he]
    · rw [if_neg he]
      rw [if_pos hbad]
  · show parseTimeToSeconds (String.mk (['1'] ++ ':' :: (['0', '2'] ++ ':' :: ['0', '3'])))
      = some (.fin 3723)
    rw [parseTime_digits3 ['1'] ['0', '2'] ['0', '3'] (by simp) (by simp) (by simp)
      (by decide) (by decide) (by decide)]
    rw [show digitsToNat ['1'] = 1 from rfl, show digitsToNat ['0', '2'] = 2 from rfl,
      show digitsToNat ['0', '3'] = 3 from rfl]
    norm_num
  · show parseTimeToSeconds (String.mk (['2'] ++ ':' :: ['0', '3'])) = some (.fin 123)
    rw [parseTime_digits2 ['2'] ['0', '3'] (by simp) (by simp) (by decide) (by decide)]
    rw [show digitsToNat ['2'] = 2 from rfl, show digitsToNat ['0', '3'] = 3 from rfl]
    norm_num
  · show parseTimeToSeconds (String.mk ['4', '5']) = some (.fin 45)
    rw [parseTime_digits1 ['4', '5'] (by simp) (by decide)]
    rw [show digitsToNat ['4', '5'] = 45 from rfl]
    norm_num


/-! ### C9: URL fragment matching -/

theorem utf8Encode_cons (c : Char) (r : List Char) :
    utf8Encode (c :: r) = utf8EncodeChar c ++ utf8Encode r := by
  unfold utf8Encode
  rw [List.map_cons, List.flatten_cons]

theorem pctBytes_no_pct (l : List Char) (h : '%' ∉ l) :
    pctBytes l = some (utf8Encode l) := by
  induction l with
  | nil => rfl
  | cons c r ih =>
    unfold pctBytes
    rw [if_neg (by intro he; exact h (by simp [he]))]
    rw [ih (fun hm => h (by simp [hm]))]
    show some (utf8EncodeChar c ++ utf8Encode r) = some (utf8Encode (c :: r))
    rw [utf8Encode_cons]

theorem decodeURIComponent_no_pct (l : List Char) (h : '%' ∉ l) :
    decodeURIComponent l = some l := by
  unfold decodeURIComponent
  rw [pctBytes_no_pct l h]
  exact utf8Decode_utf8Encode l

theorem kCapture_skip (xs l : List Char)
    (h : ∀ c ∈ xs, c ≠ '#' ∧ c ≠ '&') :
    kCapture (xs ++ l) = kCapture l := by
  induction xs with
  | nil => rfl
  | cons c t ih =>
    show kCapture (c :: (t ++ l)) = kCapture l
    rw [kCapture]
    rw [if_neg (by
      rintro (he | he)
      · exact (h c (by simp)).1 he
      · exact (h c (by simp)).2 he)]
    exact ih (fun d hd => h d (by simp [hd]))

theorem takeWhile_append_all {α} (p : α → Bool) (xs ys : List α)
    (h : ∀ a ∈ xs, p a = true) :
    (xs ++ ys).takeWhile p = xs ++ ys.takeWhile p := by
  induction xs with
  | nil => rfl
  | cons a t ih =>
    show ((a :: (t ++ ys)).takeWhile p) = a :: (t ++ ys.takeWhile p)
    rw [List.takeWhile_cons, h a (by simp), if_pos rfl]
    rw [ih (fun b hb => h b (by simp [hb]))]

theorem takeWhile_no_amp (tok tail : List Char) (ht : '&' ∉ tok)
    (htail : tail = [] ∨ tail.head? = some '&') :
    (tok ++ tail).takeWhile (fun d => !(d == '&')) = tok := by
  have h1 : ∀ a ∈ tok, (fun d => !(d == '&')) a = true := by
    intro a ha
    have hne : a ≠ '&' := fun he => ht (he ▸ ha)
    simp [hne]
  rw [takeWhile_append_all _ tok tail h1]
  rcases htail with h | h
  · rw [h]
    simp
  · cases tail with
    | nil => simp
    | cons c r =>
      have hc : c = '&' := by
        injection h
      rw [List.takeWhile_cons, hc]
      simp

theorem kTry_found (tok tail : List Char) (hne : tok ≠ []) (ht : '&' ∉ tok)
    (htail : tail = [] ∨ tail.head? = some '&') :
    kTry ('k' :: '=' :: (tok ++ tail)) = some tok := by
  cases tok with
  | nil => exact absurd rfl hne
  | cons t0 ts =>
    rw [kTry]
    rw [if_pos ⟨rfl, rfl⟩]
    rw [takeWhile_no_amp _ _ ht htail]

theorem kCapture_found (sep : Char) (hsep : sep = '#' ∨ sep = '&')
    (tok tail : List Char) (hne : tok ≠ []) (ht : '&' ∉ tok)
    (htail : tail = [] ∨ tail.head? = some '&') :
    kCapture (sep :: 'k' :: '=' :: (tok ++ tail)) = some tok := by
  rw [kCapture]
  rw [if_pos hsep]
  rw [kTry_found tok tail hne ht htail]

theorem kTry_miss (mid tok tail : List Char) (hkm : mid.take 2 ≠ ['k', '=']) :
    kTry (mid ++ '&' :: 'k' :: '=' :: (tok ++ tail)) = none := by
  cases mid with
  | nil =>
    rw [List.nil_append, kTry]
    rw [if_neg (by
      rintro ⟨h, _⟩
      exact absurd h (by decide))]
  | cons m1 ms =>
    cases ms with
    | nil =>
      show kTry (m1 :: '&' :: 'k' :: '=' :: (tok ++ tail)) = none
      rw [kTry]
      rw [if_neg (by
        rintro ⟨_, h⟩
        exact absurd h (by decide))]
    | cons m2 ms2 =>
      show kTry (m1 :: m2 :: (ms2 ++ '&' :: 'k' :: '=' :: (tok ++ tail))) = none
      rw [kTry]
      rw [if_neg (by
        rintro ⟨h1, h2⟩
        exact hkm (by rw [h1, h2]; rfl))]

theorem kCapture_robust (mid tok tail : List Char)
    (hmid1 : '#' ∉ mid) (hmid2 : '&' ∉ mid) (hkm : mid.take 2 ≠ ['k', '='])
    (hne : tok ≠ []) (ht : '&' ∉ tok)
    (htail : tail = [] ∨ tail.head? = some '&') :
    kCapture ('#' :: (mid ++ '&' :: 'k' :: '=' :: (tok ++ tail))) = some tok := by
  rw [kCapture]
  rw [if_pos (Or.inl rfl)]
  rw [kTry_miss mid tok tail hkm]
  show kCapture (mid ++ '&' :: 'k' :: '=' :: (tok ++ tail)) = some tok
  rw [kCapture_skip mid _ (fun c hc =>
    ⟨fun he => hmid1 (he ▸ hc), fun he => hmid2 (he ▸ hc)⟩)]
  exact kCapture_found '&' (Or.inr rfl) tok tail hne ht htail

theorem eventCapture_found (id : List Char) (hne : id ≠ [])
    (hid : ∀ c ∈ id, isEidChar c = true) :
    eventCapture ("event=".data ++ id) = some id := by
  cases id with
  | nil => exact absurd rfl hne
  | cons t0 ts =>
    show eventCapture ('e' :: ('v' :: 'e' :: 'n' :: 't' :: '=' :: t0 :: ts)) = some (t0 :: ts)
    rw [eventCapture]
    rw [if_pos (by rfl)]
    rw [show (('e' :: 'v' :: 'e' :: 'n' :: 't' :: '=' :: t0 :: ts).drop 6) = t0 :: ts
      from rfl]
    rw [takeWhile_all isEidChar (t0 :: ts) hid]

/-- C9: the share token is extracted from the URL fragment by the first
`[#&]k=([^&]+)` match — both the plain `#k=<tok>` form and a fragment with
other parameters before and after the `k=` pair — then percent-decoded; the
legacy single-file app additionally recognizes `#event=<id>` fragments
carrying only an event identifier. -/
theorem C9_hash_token_extraction (mid tok tail id fresh : List Char)
    (hmid1 : '#' ∉ mid) (hmid2 : '&' ∉ mid) (hkm : mid.take 2 ≠ ['k', '='])
    (hne : tok ≠ []) (ht : '&' ∉ tok) (hpct : '%' ∉ tok)
    (htail : tail = [] ∨ tail.head? = some '&')
    (hid : id ≠ []) (heid : ∀ c ∈ id, isEidChar c = true) :
    importKeyFromHash ('#' :: 'k' :: '=' :: tok) = some tok ∧
    importKeyFromHash ('#' :: (mid ++ '&' :: 'k' :: '=' :: (tok ++ tail)))
      = some tok ∧
    extractKeyFromUrl ('#' :: (mid ++ '&' :: 'k' :: '=' :: (tok ++ tail)))
      = some tok ∧
    initialEventId ('#' :: ("event=".data ++ id)) fresh = id := by
  have hplain : kCapture ('#' :: 'k' :: '=' :: tok) = some tok := by
    rw [show '#' :: 'k' :: '=' :: tok = '#' :: 'k' :: '=' :: (tok ++ []) by
      rw [List.append_nil]]
    exact kCapture_found '#' (Or.inl rfl) tok [] hne ht (Or.inl rfl)
  have hrob := kCapture_robust mid tok tail hmid1 hmid2 hkm hne ht htail
  refine ⟨?_, ?_, ?_, ?_⟩
  · unfold importKeyFromHash
    rw [hplain]
    exact decodeURIComponent_no_pct tok hpct
  · unfold importKeyFromHash
    rw [hrob]
    exact decodeURIComponent_no_pct tok hpct
  · unfold extractKeyFromUrl
    rw [hrob]
    exact decodeURIComponent_no_pct tok hpct
  · unfold initialEventId
    rw [show stripHashPrefix ('#' :: ("event=".data ++ id)) = "event=".data ++ id
      from rfl]
    rw [eventCapture_found id hid heid]

theorem C9_hash_token_extraction_witness :
    ('#' ∉ ['a', '=', '1']) ∧ ('&' ∉ ['a', '=', '1']) ∧
    (['a', '=', '1'].take 2 ≠ ['k', '=']) ∧
    (['T', 'O', 'K'] ≠ ([] : List Char)) ∧ ('&' ∉ ['T', 'O', 'K']) ∧
    ('%' ∉ ['T', 'O', 'K']) ∧
    ((['&', 'x'] : List Char) = [] ∨ (['&', 'x'] : List Char).head? = some '&') ∧
    ((['a', 'b', '-', '1'] : List Char) ≠ []) ∧
    (∀ c ∈ (['a', 'b', '-', '1'] : List Char), isEidChar c = true) ∧
    (importKeyFromHash ('#' :: 'k' :: '=' :: ['T', 'O', 'K'])
        = some ['T', 'O', 'K'] ∧
     importKeyFromHash
        ('#' :: (['a', '=', '1'] ++ '&' :: 'k' :: '=' :: (['T', 'O', 'K'] ++ ['&', 'x'])))
        = some ['T', 'O', 'K'] ∧
     extractKeyFromUrl
        ('#' :: (['a', '=', '1'] ++ '&' :: 'k' :: '=' :: (['T', 'O', 'K'] ++ ['&', 'x'])))
        = some ['T', 'O', 'K'] ∧
     initialEventId ('#' :: ("event=".data ++ ['a', 'b', '-', '1'])) ['f']
        = ['a', 'b', '-', '1']) :=
  ⟨by decide, by decide, by decide, by decide, by decide, by decide, by decide,
   by decide, by decide,
   C9_hash_token_extraction ['a', '=', '1'] ['T', 'O', 'K'] ['&', 'x']
     ['a', 'b', '-', '1'] ['f'] (by decide) (by decide) (by decide) (by decide)
     (by decide) (by decide) (by decide) (by decide) (by decide)⟩


/-! ### C4 and C5: rank-based point allocation -/

theorem lookup_map_const (i : String) (run : List (String × Option ℚ)) (v : ℚ)
    (h : i ∈ run.map Prod.fst) :
    List.lookup i (run.map (fun e => (e.1, v))) = some v := by
  induction run with
  | nil => simp at h
  | cons a t ih =>
    obtain ⟨k, s0⟩ := a
    by_cases hik : i = k
    · subst hik
      have hb : (i == i) = true := beq_self_eq_true i
      simp only [List.map_cons, List.lookup, hb]
    · have hb : (i == k) = false := beq_eq_false_iff_ne.mpr hik
      simp only [List.map_cons, List.lookup, hb]
      apply ih
      have h2 : i ∈ k :: t.map Prod.fst := h
      rcases List.mem_cons.mp h2 with he | hm
      · exact absurd he hik
      · exact hm

theorem lookup_none_of_not_mem {β} (i : String) (xs : List (String × β))
    (h : i ∉ xs.map Prod.fst) : List.lookup i xs = none := by
  induction xs with
  | nil => rfl
  | cons a t ih =>
    obtain ⟨k, w⟩ := a
    have hik : i ≠ k := fun he => h (by simp [he])
    have hb : (i == k) = false := beq_eq_false_iff_ne.mpr hik
    simp only [List.lookup, hb]
    exact ih (fun hm => h (by simp [hm]))

theorem lookup_append_first {β} (i : String) (xs ys : List (String × β)) (v : β)
    (h : List.lookup i xs = some v) :
    List.lookup i (xs ++ ys) = some v := by
  induction xs with
  | nil => exact absurd h (by simp)
  | cons a t ih =>
    obtain ⟨k, w⟩ := a
    rw [List.cons_append]
    by_cases hik : i = k
    · subst hik
      have hb : (i == i) = true := beq_self_eq_true i
      simp only [List.lookup, hb] at h ⊢
      exact h
    · have hb : (i == k) = false := beq_eq_false_iff_ne.mpr hik
      simp only [List.lookup, hb] at h ⊢
      exact ih h

theorem lookup_append_skip {β} (i : String) (xs ys : List (String × β))
    (h : i ∉ xs.map Prod.fst) :
    List.lookup i (xs ++ ys) = List.lookup i ys := by
  induction xs with
  | nil => rfl
  | cons a t ih =>
    obtain ⟨k, w⟩ := a
    have hik : i ≠ k := fun he => h (by simp [he])
    have hb : (i == k) = false := beq_eq_false_iff_ne.mpr hik
    rw [List.cons_append]
    simp only [List.lookup, hb]
    exact ih (fun hm => h (by simp [hm]))

theorem dropWhile_append_all {α} (p : α → Bool) (xs ys : List α)
    (h : ∀ a ∈ xs, p a = true) :
    (xs ++ ys).dropWhile p = ys.dropWhile p := by
  induction xs with
  | nil => rfl
  | cons a t ih =>
    show ((a :: (t ++ ys)).dropWhile p) = ys.dropWhile p
    rw [List.dropWhile_cons, h a (by simp), if_pos rfl]
    exact ih (fun b hb => h b (by simp [hb]))

theorem takeWhile_head_false {α} (p : α → Bool) (l : List α)
    (h : ∀ x, l.head? = some x → p x = false) :
    l.takeWhile p = [] := by
  cases l with
  | nil => rfl
  | cons c r =>
    rw [List.takeWhile_cons, h c rfl]
    simp

theorem dropWhile_head_false {α} (p : α → Bool) (l : List α)
    (h : ∀ x, l.head? = some x → p x = false) :
    l.dropWhile p = l := by
  cases l with
  | nil => rfl
  | cons c r =>
    rw [List.dropWhile_cons, h c rfl]
    simp

theorem dropWhile_cons_shape {α} (p : α → Bool) (xs zs : List α) (d0 : α)
    (drest : List α) (h : xs.dropWhile p = d0 :: drest) :
    (xs ++ zs).dropWhile p = d0 :: (drest ++ zs) ∧
    (xs ++ zs).takeWhile p = xs.takeWhile p := by
  induction xs with
  | nil => simp at h
  | cons a t ih =>
    rw [List.dropWhile_cons] at h
    by_cases hpa : p a = true
    · rw [hpa, if_pos rfl] at h
      obtain ⟨ih1, ih2⟩ := ih h
      constructor
      · show ((a :: (t ++ zs)).dropWhile p) = d0 :: (drest ++ zs)
        rw [List.dropWhile_cons, hpa, if_pos rfl]
        exact ih1
      · show ((a :: (t ++ zs)).takeWhile p) = (a :: t).takeWhile p
        rw [List.takeWhile_cons, hpa, if_pos rfl, List.takeWhile_cons, hpa,
          if_pos rfl]
        rw [ih2]
    · have hpaf : p a = false := by
        cases hv : p a
        · rfl
        · exact absurd hv hpa
      rw [hpaf] at h
      simp only [if_neg Bool.false_ne_true] at h
      injection h with h1 h2
      constructor
      · show ((a :: (t ++ zs)).dropWhile p) = d0 :: (drest ++ zs)
        rw [List.dropWhile_cons, hpaf]
        simp only [if_neg Bool.false_ne_true]
        rw [h1, h2]
      · show ((a :: (t ++ zs)).takeWhile p) = (a :: t).takeWhile p
        rw [List.takeWhile_cons, hpaf, List.takeWhile_cons, hpaf]
        simp

theorem dropWhile_head_not {α} (p : α → Bool) (xs : List α) (d0 : α)
    (drest : List α) (h : xs.dropWhile p = d0 :: drest) : p d0 = false := by
  induction xs with
  | nil => simp at h
  | cons a t ih =>
    rw [List.dropWhile_cons] at h
    by_cases hpa : p a = true
    · rw [hpa, if_pos rfl] at h
      exact ih h
    · have hpaf : p a = false := by
        cases hv : p a
        · rfl
        · exact absurd hv hpa
      rw [hpaf] at h
      simp only [if_neg Bool.false_ne_true] at h
      injection h with h1 h2
      subst h1
      exact hpaf

theorem getLast_append_right {α} (xs ys : List α) (h : ys ≠ []) :
    (xs ++ ys).getLast? = ys.getLast? := by
  induction xs with
  | nil => rfl
  | cons a t ih =>
    show ((a :: (t ++ ys)).getLast?) = ys.getLast?
    cases hty : t ++ ys with
    | nil =>
      rcases List.append_eq_nil.mp hty with ⟨_, h2⟩
      exact absurd h2 h
    | cons b l =>
      rw [List.getLast?_cons_cons, ← hty]
      exact ih

theorem lookup_skip_mapped (i : String) (xs : List (String × Option ℚ)) (v : ℚ)
    (ys : List (String × ℚ)) (h : i ∉ xs.map Prod.fst) :
    List.lookup i (xs.map (fun e => (e.1, v)) ++ ys) = List.lookup i ys := by
  apply lookup_append_skip
  rw [List.map_map]
  intro hm
  apply h
  simpa using hm

theorem allocGoF_keys (table : List ℚ) :
    ∀ fuel rank (l : List (String × Option ℚ)), l.length ≤ fuel →
    (allocGoF table fuel rank l).map Prod.fst = l.map Prod.fst := by
  intro fuel
  induction fuel with
  | zero =>
    intro rank l hl
    have h0 : l = [] := List.eq_nil_of_length_eq_zero (by omega)
    subst h0
    rfl
  | succ f ih =>
    intro rank l hl
    cases l with
    | nil => rfl
    | cons e rest =>
      obtain ⟨i, score⟩ := e
      cases score with
      | none =>
        rw [allocGoF]
        simp [List.map_map, Function.comp]
      | some q =>
        rw [allocGoF]
        rw [List.map_append]
        have hsplit := List.takeWhile_append_dropWhile
          (p := fun e => e.2 == some q) (l := rest)
        have hlen2 : (rest.dropWhile (fun e => e.2 == some q)).length ≤ f := by
          have h2 := congrArg List.length hsplit
          rw [List.length_append] at h2
          have h3 : rest.length + 1 ≤ f + 1 := by simpa using hl
          omega
        rw [ih _ _ hlen2]
        rw [List.map_map]
        show (i :: (rest.takeWhile (fun e => e.2 == some q)).map Prod.fst)
            ++ (rest.dropWhile (fun e => e.2 == some q)).map Prod.fst
          = i :: rest.map Prod.fst
        rw [List.cons_append, ← List.map_append, hsplit]

theorem allocGoF_zero (table : List ℚ) :
    ∀ fuel rank (l : List (String × Option ℚ)), l.length ≤ fuel →
    ((l.map Prod.fst).Nodup) →
    ∀ e ∈ l, e.2 = none → List.lookup e.1 (allocGoF table fuel rank l) = some 0 := by
  intro fuel
  induction fuel with
  | zero =>
    intro rank l hl hnd e he h2
    have h0 : l = [] := List.eq_nil_of_length_eq_zero (by omega)
    subst h0
    simp at he
  | succ f ih =>
    intro rank l hl hnd e he h2
    cases l with
    | nil => simp at he
    | cons hd rest =>
      obtain ⟨i, score⟩ := hd
      cases score with
      | none =>
        rw [allocGoF]
        show List.lookup e.1 (((i, none) :: rest).map (fun e => (e.1, (0 : ℚ))))
          = some 0
        exact lookup_map_const e.1 ((i, none) :: rest) 0
          (List.mem_map_of_mem Prod.fst he)
      | some q =>
        rw [allocGoF]
        have hnehd : e ≠ (i, some q) := by
          intro heq
          rw [heq] at h2
          exact Option.noConfusion h2
        have herest : e ∈ rest := by
          rcases List.mem_cons.mp he with heq | hm
          · exact absurd heq hnehd
          · exact hm
        have hsplit := List.takeWhile_append_dropWhile
          (p := fun e => e.2 == some q) (l := rest)
        have hetie : e ∉ rest.takeWhile (fun e => e.2 == some q) := by
          intro hm
          have hp := List.mem_takeWhile_imp hm
          rw [h2] at hp
          simp at hp
        have herest2 : e ∈ rest.dropWhile (fun e => e.2 == some q) := by
          have := hsplit ▸ herest
          rcases List.mem_append.mp this with hm | hm
          · exact absurd hm hetie
          · exact hm
        have hikeys : (i :: rest.map Prod.fst).Nodup := hnd
        have hi1 : i ∉ rest.map Prod.fst := (List.nodup_cons.mp hikeys).1
        have hi2 : (rest.map Prod.fst).Nodup := (List.nodup_cons.mp hikeys).2
        have hsplitk : rest.map Prod.fst
            = (rest.takeWhile (fun e => e.2 == some q)).map Prod.fst
              ++ (rest.dropWhile (fun e => e.2 == some q)).map Prod.fst := by
          rw [← List.map_append, hsplit]
        have hdisj : ((rest.takeWhile (fun e => e.2 == some q)).map Prod.fst).Disjoint
            ((rest.dropWhile (fun e => e.2 == some q)).map Prod.fst) :=
          List.disjoint_of_nodup_append (by rw [← hsplitk]; exact hi2)
        have hmem2 : e.1 ∈ (rest.dropWhile (fun e => e.2 == some q)).map Prod.fst :=
          List.mem_map_of_mem Prod.fst herest2
        have hnocap : e.1 ∉ ((i, some q)
            :: rest.takeWhile (fun e => e.2 == some q)).map Prod.fst := by
          intro hm
          rcases List.mem_cons.mp hm with heq | hm2
          · apply hi1
            have heq2 : e.1 = i := heq
            rw [← heq2]
            exact List.mem_map_of_mem Prod.fst herest
          · exact hdisj hm2 hmem2
        rw [lookup_skip_mapped e.1 _ _ _ hnocap]
        have hlen2 : (rest.dropWhile (fun e => e.2 == some q)).length ≤ f := by
          have hlc := congrArg List.length hsplit
          rw [List.length_append] at hlc
          have h3 : rest.length + 1 ≤ f + 1 := by simpa using hl
          omega
        have hnd2 : ((rest.dropWhile (fun e => e.2 == some q)).map Prod.fst).Nodup := by
          rw [hsplitk] at hi2
          exact hi2.of_append_right
        exact ih _ _ hlen2 hnd2 e herest2 h2


theorem allocGoF_run (table : List ℚ) :
    ∀ fuel rank (pre run post : List (String × Option ℚ)) (q : ℚ),
    (pre ++ run ++ post).length ≤ fuel →
    (((pre ++ run ++ post).map Prod.fst).Nodup) →
    (∀ e ∈ pre, e.2 ≠ none) →
    run ≠ [] →
    (∀ e ∈ run, e.2 = some q) →
    (∀ x, pre.getLast? = some x → x.2 ≠ some q) →
    (∀ x, post.head? = some x → x.2 ≠ some q) →
    ∀ e ∈ run, List.lookup e.1 (allocGoF table fuel rank (pre ++ run ++ post))
      = some (rankSum table (rank + pre.length) run.length / (run.length : ℚ)) := by
  intro fuel
  induction fuel with
  | zero =>
    intro rank pre run post q hl hnd hpre hrne hrq hlast hhead e he
    cases run with
    | nil => exact absurd rfl hrne
    | cons r0 rt =>
      rw [List.length_append, List.length_append] at hl
      simp at hl
  | succ f ih =>
    intro rank pre run post q hl hnd hpre hrne hrq hlast hhead e he
    cases pre with
    | nil =>
      cases run with
      | nil => exact absurd rfl hrne
      | cons r0 rt =>
        obtain ⟨i0, s0⟩ := r0
        have hs0 : s0 = some q := hrq (i0, s0) (by simp)
        subst hs0
        rw [List.nil_append, List.cons_append]
        rw [allocGoF]
        have hrtall : ∀ x ∈ rt, (fun (e : String × Option ℚ) => e.2 == some q) x
            = true := by
          intro x hx
          have hxq := hrq x (by simp [hx])
          simp [hxq]
        have hposthead : ∀ x, post.head? = some x →
            (fun (e : String × Option ℚ) => e.2 == some q) x = false := by
          intro x hx
          have hne := hhead x hx
          simpa using hne
        have htw : (rt ++ post).takeWhile (fun e => e.2 == some q) = rt := by
          rw [takeWhile_append_all _ _ _ hrtall,
            takeWhile_head_false _ _ hposthead, List.append_nil]
        have hdw : (rt ++ post).dropWhile (fun e => e.2 == some q) = post := by
          rw [dropWhile_append_all _ _ _ hrtall,
            dropWhile_head_false _ _ hposthead]
        rw [htw, hdw]
        have hkey : e.1 ∈ ((i0, some q) :: rt).map Prod.fst :=
          List.mem_map_of_mem Prod.fst he
        rw [lookup_append_first _ _ _ _ (lookup_map_const e.1 _ _ hkey)]
        simp
    | cons p0 ptail =>
      obtain ⟨i0, s0⟩ := p0
      have hs0ne : s0 ≠ none := hpre (i0, s0) (by simp)
      obtain ⟨q0, hq0⟩ : ∃ q0, s0 = some q0 := by
        cases s0 with
        | none => exact absurd rfl hs0ne
        | some v => exact ⟨v, rfl⟩
      subst hq0
      rw [List.cons_append, List.cons_append]
      rw [allocGoF]
      cases hcase : ptail.dropWhile (fun e => e.2 == some q0) with
      | nil =>
        have hpt2 : ptail.takeWhile (fun e => e.2 == some q0) = ptail := by
          have h6 := List.takeWhile_append_dropWhile
            (p := fun (e : String × Option ℚ) => e.2 == some q0) (l := ptail)
          rw [hcase, List.append_nil] at h6
          exact h6
        have hallp : ∀ x ∈ ptail,
            (fun (e : String × Option ℚ) => e.2 == some q0) x = true := by
          intro x hx
          rw [← hpt2] at hx
          simpa using List.mem_takeWhile_imp hx
        have hq0q : q0 ≠ q := by
          cases hptc : ptail with
          | nil =>
            have hne := hlast (i0, some q0) (by rw [hptc]; rfl)
            intro he2
            apply hne
            rw [he2]
          | cons pt1 pts =>
            cases hgl : (pt1 :: pts).getLast? with
            | none => simp at hgl
            | some x =>
              have hxm : x ∈ pt1 :: pts := List.mem_of_mem_getLast? hgl
              have hxs : x.2 = some q0 := by
                have hp := hallp x (by rw [hptc]; exact hxm)
                simpa using hp
              have hne := hlast x (by
                rw [hptc, List.getLast?_cons_cons]
                exact hgl)
              intro he2
              apply hne
              rw [hxs, he2]
        have hrunhead : ∀ x, (run ++ post).head? = some x →
            (fun (e : String × Option ℚ) => e.2 == some q0) x = false := by
          intro x hx
          cases run with
          | nil => exact absurd rfl hrne
          | cons r0 rt =>
            have hx0 : r0 = x := by
              rw [List.cons_append] at hx
              injection hx
            have hr0 : r0.2 = some q := hrq r0 (by simp)
            rw [← hx0]
            simp [hr0, Ne.symm hq0q]
        have htw : ((ptail ++ run) ++ post).takeWhile
            (fun e => e.2 == some q0) = ptail := by
          rw [List.append_assoc, takeWhile_append_all _ _ _ hallp,
            takeWhile_head_false _ _ hrunhead, List.append_nil]
        have hdw : ((ptail ++ run) ++ post).dropWhile
            (fun e => e.2 == some q0) = run ++ post := by
          rw [List.append_assoc, dropWhile_append_all _ _ _ hallp,
            dropWhile_head_false _ _ hrunhead]
        rw [htw, hdw]
        have hlen2 : (([] ++ run ++ post) : List (String × Option ℚ)).length ≤ f := by
          have hlc := hl
          simp only [List.cons_append, List.length_cons, List.length_append,
            List.nil_append] at hlc ⊢
          omega
        have hndtail : ((((ptail ++ run) ++ post)).map Prod.fst).Nodup := by
          have h4 : ((((i0, some q0) :: ptail ++ run ++ post)).map Prod.fst).Nodup := hnd
          rw [List.cons_append, List.cons_append, List.map_cons] at h4
          exact (List.nodup_cons.mp h4).2
        have hnd2 : ((([] ++ run ++ post) : List (String × Option ℚ)).map
            Prod.fst).Nodup := by
          rw [List.nil_append]
          have h5 : ((ptail ++ (run ++ post)).map Prod.fst).Nodup := by
            rw [← List.append_assoc]
            exact hndtail
          rw [List.map_append] at h5
          exact h5.of_append_right
        have ihres := ih (rank + (ptail.length + 1)) [] run post q hlen2 hnd2
          (by simp) hrne hrq (by intro x hx; simp at hx) hhead e he
        rw [List.nil_append] at ihres
        have hnocap : e.1 ∉ ((i0, some q0) :: ptail).map Prod.fst := by
          intro hm
          have h4 : ((((i0, some q0) :: ptail ++ run ++ post)).map Prod.fst).Nodup := hnd
          rw [List.cons_append, List.cons_append, List.map_cons] at h4
          have h7 := List.nodup_cons.mp h4
          have hkey : e.1 ∈ (run ++ post).map Prod.fst := by
            rw [List.map_append]
            exact List.mem_append.mpr (Or.inl (List.mem_map_of_mem Prod.fst he))
          rcases List.mem_cons.mp hm with heq | hm2
          · apply h7.1
            have heq2 : e.1 = i0 := heq
            rw [← heq2]
            rw [List.append_assoc, List.map_append]
            exact List.mem_append.mpr (Or.inr hkey)
          · have h5 : ((ptail ++ (run ++ post)).map Prod.fst).Nodup := by
              rw [← List.append_assoc]
              exact h7.2
            rw [List.map_append] at h5
            exact (List.disjoint_of_nodup_append h5) hm2 hkey
        rw [lookup_skip_mapped _ _ _ _ hnocap]
        rw [ihres]
        simp
      | cons d0 drest =>
        have hsh := dropWhile_cons_shape (fun (e : String × Option ℚ) => e.2 == some q0)
          ptail (run ++ post) d0 drest hcase
        have htw : ((ptail ++ run) ++ post).takeWhile (fun e => e.2 == some q0)
            = ptail.takeWhile (fun e => e.2 == some q0) := by
          rw [List.append_assoc]
          exact hsh.2
        have hdw : ((ptail ++ run) ++ post).dropWhile (fun e => e.2 == some q0)
            = ((d0 :: drest) ++ run) ++ post := by
          rw [List.append_assoc]
          rw [hsh.1]
          simp
        rw [htw, hdw]
        have hpt : ptail.takeWhile (fun e => e.2 == some q0) ++ (d0 :: drest)
            = ptail := by
          rw [← hcase]
          exact List.takeWhile_append_dropWhile
            (p := fun (e : String × Option ℚ) => e.2 == some q0) (l := ptail)
        have hlen2 : (((d0 :: drest) ++ run ++ post)).length ≤ f := by
          have hlc : (((i0, some q0) :: ptail ++ run ++ post)).length ≤ f + 1 := hl
          have hlp := congrArg List.length hpt
          rw [List.length_append] at hlp
          rw [List.length_append, List.length_append] at hlc ⊢
          simp at hlc hlp ⊢
          omega
        have hndtail : ((((ptail ++ run) ++ post)).map Prod.fst).Nodup := by
          have h4 : ((((i0, some q0) :: ptail ++ run ++ post)).map Prod.fst).Nodup := hnd
          rw [List.cons_append, List.cons_append, List.map_cons] at h4
          exact (List.nodup_cons.mp h4).2
        have hnd2 : ((((d0 :: drest) ++ run ++ post)).map Prod.fst).Nodup := by
          have h5 : (((ptail.takeWhile (fun e => e.2 == some q0))
              ++ ((d0 :: drest) ++ run ++ post)).map Prod.fst).Nodup := by
            rw [show (ptail.takeWhile (fun e => e.2 == some q0))
                ++ ((d0 :: drest) ++ run ++ post)
                = (ptail ++ run) ++ post from by
              rw [← List.append_assoc, ← List.append_assoc, hpt]]
            exact hndtail
          rw [List.map_append] at h5
          exact h5.of_append_right
        have hpre2 : ∀ x ∈ (d0 :: drest), x.2 ≠ none := by
          intro x hx
          have hxp : x ∈ ptail := by
            rw [← hpt]
            exact List.mem_append.mpr (Or.inr hx)
          exact hpre x (by simp [hxp])
        have hlast2 : ∀ x, (d0 :: drest).getLast? = some x → x.2 ≠ some q := by
          intro x hx
          apply hlast x
          have h8 : ((i0, some q0) :: ptail).getLast? = (d0 :: drest).getLast? := by
            rw [show (i0, some q0) :: ptail = [(i0, some q0)] ++ ptail from rfl]
            rw [getLast_append_right _ _ (by rw [← hpt]; simp)]
            rw [← hpt]
            rw [getLast_append_right _ _ (by simp)]
          rw [h8]
          exact hx
        have ihres := ih (rank + ((ptail.takeWhile (fun e => e.2 == some q0)).length
            + 1)) (d0 :: drest) run post q hlen2 hnd2 hpre2 hrne hrq hlast2 hhead e he
        have hnocap : e.1 ∉ ((i0, some q0)
            :: ptail.takeWhile (fun e => e.2 == some q0)).map Prod.fst := by
          intro hm
          have h4 : ((((i0, some q0) :: ptail ++ run ++ post)).map Prod.fst).Nodup := hnd
          rw [List.cons_append, List.cons_append, List.map_cons] at h4
          have h7 := List.nodup_cons.mp h4
          have hkey : e.1 ∈ (run ++ post).map Prod.fst := by
            rw [List.map_append]
            exact List.mem_append.mpr (Or.inl (List.mem_map_of_mem Prod.fst he))
          rcases List.mem_cons.mp hm with heq | hm2
          · apply h7.1
            have heq2 : e.1 = i0 := heq
            rw [← heq2]
            rw [List.append_assoc, List.map_append]
            exact List.mem_append.mpr (Or.inr hkey)
          · have h5 : ((ptail ++ (run ++ post)).map Prod.fst).Nodup := by
              rw [← List.append_assoc]
              exact h7.2
            rw [List.map_append] at h5
            have htp : e.1 ∈ ptail.map Prod.fst := by
              have hsub : ptail.takeWhile (fun e => e.2 == some q0) |>.Sublist ptail :=
                List.takeWhile_sublist _
              exact (hsub.map Prod.fst).subset hm2
            exact (List.disjoint_of_nodup_append h5) htp hkey
        rw [lookup_skip_mapped _ _ _ _ hnocap]
        rw [ihres]
        have harith : rank + ((ptail.takeWhile (fun e => e.2 == some q0)).length + 1)
            + (d0 :: drest).length = rank + ((i0, some q0) :: ptail).length := by
          have hlp := congrArg List.length hpt
          rw [List.length_append] at hlp
          simp at hlp ⊢
          omega
        rw [harith]


/-- C4: on an input list sorted descending by score with all scored entries
before unscored ones and distinct athlete ids, every maximal run of
consecutive entries sharing one score is awarded the average of the
points-table values at the ranks the run occupies (`pointsTable[k] ?? 0`,
so 0 beyond the table length), the same amount for every member of the run;
in particular scores [10, 10, 5] with table [25, 18, 15] award 21.5, 21.5
and 15. -/
theorem C4_alloc_average_of_tied_ranks (table : List ℚ)
    (pre run post : List (String × Option ℚ)) (q : ℚ)
    (hsorted : (pre ++ run ++ post).Pairwise (fun a b => scoreOrdB a.2 b.2 = true))
    (hnodup : ((pre ++ run ++ post).map Prod.fst).Nodup)
    (hpre : ∀ e ∈ pre, e.2 ≠ none)
    (hrne : run ≠ []) (hrq : ∀ e ∈ run, e.2 = some q)
    (hlast : ∀ x, pre.getLast? = some x → x.2 ≠ some q)
    (hhead : ∀ x, post.head? = some x → x.2 ≠ some q) :
    (∀ e ∈ run, List.lookup e.1 (allocatePointsByRank (pre ++ run ++ post) table)
      = some (rankSum table pre.length run.length / (run.length : ℚ))) ∧
    allocatePointsByRank [("a", some 10), ("b", some 10), ("c", some 5)]
        [25, 18, 15]
      = [("a", 43 / 2), ("b", 43 / 2), ("c", 15)] := by
  constructor
  · intro e he
    have h := allocGoF_run table (pre ++ run ++ post).length 0 pre run post q
      le_rfl hnodup hpre hrne hrq hlast hhead e he
    rw [Nat.zero_add] at h
    exact h
  · with_unfolding_all decide

theorem C4_alloc_average_of_tied_ranks_witness :
    (∀ e ∈ ([("a", some 10), ("b", some 10)] : List (String × Option ℚ)),
      List.lookup e.1 (allocatePointsByRank
        (([] : List (String × Option ℚ))
          ++ [("a", some 10), ("b", some 10)] ++ [("c", some 5)]) [25, 18, 15])
        = some (rankSum [25, 18, 15] ([] : List (String × Option ℚ)).length
            ([("a", some 10), ("b", some 10)] : List (String × Option ℚ)).length
            / ((([("a", some 10), ("b", some 10)] : List (String × Option ℚ)).length : ℚ)))) ∧
    allocatePointsByRank [("a", some 10), ("b", some 10), ("c", some 5)]
        [25, 18, 15]
      = [("a", 43 / 2), ("b", 43 / 2), ("c", 15)] :=
  C4_alloc_average_of_tied_ranks [25, 18, 15] [] [("a", some 10), ("b", some 10)]
    [("c", some 5)] 10 (by decide) (by decide) (by decide) (by decide) (by decide)
    (by intro x hx; exact absurd hx (by simp))
    (by
      intro x hx
      have hx2 : x = ("c", (some 5 : Option ℚ)) := by
        have := hx
        simp at this
        exact this.symm
      rw [hx2]
      decide)

/-- C5: for a list of (athlete id, optional score) pairs with distinct ids,
sorted with all unscored entries after all scored entries, the returned
mapping contains every input id (in input order), and every unscored entry
is mapped to exactly 0 regardless of the table. -/
theorem C5_alloc_ids_and_unscored (table : List ℚ)
    (l : List (String × Option ℚ))
    (hnodup : (l.map Prod.fst).Nodup)
    (hsorted : l.Pairwise (fun a b => scoreOrdB a.2 b.2 = true)) :
    ((allocatePointsByRank l table).map Prod.fst = l.map Prod.fst) ∧
    (∀ e ∈ l, e.2 = none →
      List.lookup e.1 (allocatePointsByRank l table) = some 0) := by
  constructor
  · exact allocGoF_keys table l.length 0 l le_rfl
  · intro e he h2
    exact allocGoF_zero table l.length 0 l le_rfl hnodup e he h2

theorem C5_alloc_ids_and_unscored_witness :
    ((allocatePointsByRank [("a", some 1), ("b", none)] [5]).map Prod.fst
      = ([("a", some 1), ("b", none)] : List (String × Option ℚ)).map Prod.fst) ∧
    (∀ e ∈ ([("a", some 1), ("b", none)] : List (String × Option ℚ)), e.2 = none →
      List.lookup e.1 (allocatePointsByRank [("a", some 1), ("b", none)] [5])
        = some 0) :=
  C5_alloc_ids_and_unscored [5] [("a", some 1), ("b", none)] (by decide) (by decide)


end Liftwin